import Mathlib

/-!
Verification of the heuristic quiz-generation pipeline of `app/routes.py`:
`clean_question`, `generate_distractors`, `generate_questions` and
`generate_content_based_fallback`, shallowly embedded over `List Char` /
`String`.  Python regex operations are modelled by executable scanners with
the exact leftmost / greedy / backreference semantics of the `re` module on
the patterns the source uses.
-/

namespace Quiz

/-- Python `\s` (whitespace) on ASCII text: space, tab, newline, carriage
return, vertical tab, form feed. -/
def isWs (c : Char) : Bool :=
  c == ' ' || c == '\t' || c == '\n' || c == '\r' || c == '\x0b' || c == '\x0c'

/-- ASCII lowercase letter test (Python `str.islower` on ASCII letters). -/
def isAsciiLower (c : Char) : Bool :=
  decide (97 ≤ c.toNat ∧ c.toNat ≤ 122)

/-- ASCII uppercase letter test. -/
def isAsciiUpper (c : Char) : Bool :=
  decide (65 ≤ c.toNat ∧ c.toNat ≤ 90)

/-- ASCII digit test. -/
def isAsciiDigit (c : Char) : Bool :=
  decide (48 ≤ c.toNat ∧ c.toNat ≤ 57)

/-- ASCII letter test. -/
def isAsciiAlpha (c : Char) : Bool :=
  isAsciiLower c || isAsciiUpper c

/-- Python `\w` word character on ASCII text: letter, digit or underscore. -/
def isWordC (c : Char) : Bool :=
  isAsciiAlpha c || isAsciiDigit c || c == '_'

/-- ASCII upcasing of one character (Python `str.upper` on one ASCII char). -/
def upperC (c : Char) : Char :=
  if isAsciiLower c then Char.ofNat (c.toNat - 32) else c

/-- ASCII downcasing of one character (Python `str.lower` on one ASCII char). -/
def lowerC (c : Char) : Char :=
  if isAsciiUpper c then Char.ofNat (c.toNat + 32) else c

/-- Python `str.lower` over a character list. -/
def lowerL (cs : List Char) : List Char := cs.map lowerC

/-- `(List.dropWhile p l).length ≤ l.length`. -/
theorem length_dropWhile_le' (p : Char → Bool) (l : List Char) :
    (l.dropWhile p).length ≤ l.length := by
  induction l with
  | nil => simp [List.dropWhile]
  | cons c rest ih =>
    by_cases h : p c = true
    · simp [List.dropWhile, h]; omega
    · simp [List.dropWhile, h]

/-- The head of a `dropWhile` result fails the predicate. -/
theorem dropWhile_head_false {p : Char → Bool} {l : List Char} {c : Char}
    {rest : List Char} (h : l.dropWhile p = c :: rest) : p c = false := by
  induction l with
  | nil => simp [List.dropWhile] at h
  | cons a l ih =>
    by_cases ha : p a = true
    · rw [List.dropWhile_cons_of_pos ha] at h; exact ih h
    · rw [List.dropWhile_cons_of_neg ha] at h
      cases h; simpa using ha

/-- Boolean prefix test on character lists. -/
def startsWithL : List Char → List Char → Bool
  | [], _ => true
  | _ :: _, [] => false
  | a :: as, b :: bs => a == b && startsWithL as bs

/-- Boolean substring test: does `hay` contain `needle` (Python `in`)? -/
def containsSub (needle hay : List Char) : Bool :=
  startsWithL needle hay ||
    match hay with
    | [] => false
    | _ :: rest => containsSub needle rest

/-- Tails shorten lists. -/
theorem length_tail_le (l : List Char) : l.tail.length ≤ l.length := by
  cases l <;> simp

/-- `re.sub(r'<[^>]+>', '', ·)`: repeatedly delete the leftmost occurrence of
`<`, one or more non-`>` characters, `>`; a `<` whose first following `>` is
adjacent (or that has no following `>`) is kept and scanning resumes after it. -/
def removeTags : List Char → List Char
  | [] => []
  | c :: rest =>
    if c = '<' then
      if (rest.dropWhile (· != '>')).isEmpty then c :: removeTags rest
      else if (rest.takeWhile (· != '>')).isEmpty then c :: removeTags rest
      else removeTags (rest.dropWhile (· != '>')).tail
    else c :: removeTags rest
termination_by cs => cs.length
decreasing_by
  all_goals simp only [List.length_cons]
  all_goals try omega
  have h1 : (rest.dropWhile (· != '>')).length ≤ rest.length :=
    length_dropWhile_le' _ _
  have h2 : (rest.dropWhile (· != '>')).tail.length ≤
      (rest.dropWhile (· != '>')).length := length_tail_le _
  omega

/-- One maximal run of `\s+` followed by a literal occurrence of `w`
(the backreference `\1`), repeated greedily: the consumer for the
`(?:\s+\1)+` part of the repeated-word pattern.  Returns the remainder. -/
def eatReps (w : List Char) (cs : List Char) : List Char :=
  if (cs.takeWhile isWs).isEmpty then cs
  else if startsWithL w (cs.dropWhile isWs) then
    eatReps w ((cs.dropWhile isWs).drop w.length)
  else cs
termination_by cs.length
decreasing_by
  rename_i h _
  have hsp : (cs.takeWhile isWs).length + (cs.dropWhile isWs).length = cs.length := by
    conv_rhs => rw [← List.takeWhile_append_dropWhile isWs cs]
    exact (List.length_append _ _).symm
  have h1 : (cs.takeWhile isWs).length ≠ 0 := by
    intro hz
    exact h (by simpa [List.isEmpty_iff, List.length_eq_zero] using hz)
  have h2 : ((cs.dropWhile isWs).drop w.length).length ≤ (cs.dropWhile isWs).length := by
    simp
  omega

/-- Helper bound: `eatReps` only drops characters. -/
theorem eatReps_length_le (w cs : List Char) : (eatReps w cs).length ≤ cs.length := by
  induction cs using eatReps.induct w with
  | case1 cs h =>
    rw [eatReps, if_pos h]
  | case2 cs h hsw ih =>
    rw [eatReps, if_neg h, if_pos hsw]
    have h2 : ((cs.dropWhile isWs).drop w.length).length ≤ (cs.dropWhile isWs).length := by
      simp
    have hr : (cs.dropWhile isWs).length ≤ cs.length := length_dropWhile_le' _ _
    omega
  | case3 cs h hsw =>
    rw [eatReps, if_neg h, if_neg hsw]

/-- The scanner for `re.sub(r'(\b\w+\b)(?:\s+\1)+', r'\1', ·)`.
`prevWord` records whether the previous character of the original string is a
word character (for the leading `\b`).  At a boundary the captured group is
the maximal word-character run `w`; the repetition then consumes maximal
whitespace runs each followed by the literal text `w` (note: with no closing
`\b`, exactly as in the source pattern, so `w` may match a prefix of a longer
word).  On success the match is replaced by `w` and scanning resumes after it. -/
def collapseGo (prevWord : Bool) (cs : List Char) : List Char :=
  match cs with
  | [] => []
  | c :: rest =>
    if prevWord = false ∧ isWordC c = true then
      if (eatReps (c :: rest.takeWhile isWordC) (rest.dropWhile isWordC)).length
          = (rest.dropWhile isWordC).length then
        c :: collapseGo true rest
      else
        (c :: rest.takeWhile isWordC) ++
          collapseGo true (eatReps (c :: rest.takeWhile isWordC) (rest.dropWhile isWordC))
    else c :: collapseGo (isWordC c) rest
termination_by cs.length
decreasing_by
  all_goals simp only [List.length_cons]
  all_goals try omega
  all_goals
    exact Nat.lt_succ_of_le (le_trans (eatReps_length_le _ _) (length_dropWhile_le' _ _))

/-- `re.sub(r'(\b\w+\b)(?:\s+\1)+', r'\1', ·)` over a whole string. -/
def collapseRepeats (cs : List Char) : List Char := collapseGo false cs

/-- Does `\?+\s+` match starting at a `'?'` whose run of `'?'`s is followed
by whitespace?  `rest` is the text after the initial `'?'`. -/
def qwsAfter (rest : List Char) : Bool :=
  match rest.dropWhile (· == '?') with
  | [] => false
  | d :: _ => isWs d

/-- First field of `re.split(r'\?+\s+', ·)`: the prefix before the leftmost
match (the whole string if there is none). -/
def splitQFirst : List Char → List Char
  | [] => []
  | c :: rest =>
    if c = '?' ∧ qwsAfter rest = true then [] else c :: splitQFirst rest

/-- Remove a maximal trailing run of characters satisfying `p`. -/
def rstripWhile (p : Char → Bool) (cs : List Char) : List Char :=
  (cs.reverse.dropWhile p).reverse

/-- Python `str.strip()`: remove leading and trailing whitespace. -/
def pstrip (cs : List Char) : List Char :=
  rstripWhile isWs (cs.dropWhile isWs)

/-- Membership of the character class `[.,;:]`. -/
def isPunctT (c : Char) : Bool :=
  c == '.' || c == ',' || c == ';' || c == ':'

/-- Does the list end with `'?'`? -/
def endsWithQ (cs : List Char) : Bool :=
  cs.getLast? == some '?'

/-- Python `str.split()` (split on whitespace runs, dropping empty fields). -/
def pwords (cs : List Char) : List (List Char) :=
  match h : cs.dropWhile isWs with
  | [] => []
  | c :: rest =>
    ((c :: rest).takeWhile (fun d => !isWs d)) ::
      pwords ((c :: rest).dropWhile (fun d => !isWs d))
termination_by cs.length
decreasing_by
  have hc : isWs c = false := dropWhile_head_false h
  have h1 : (c :: rest).dropWhile (fun d => !isWs d) = rest.dropWhile (fun d => !isWs d) := by
    simp [List.dropWhile_cons_of_pos, hc]
  have h2 : (rest.dropWhile (fun d => !isWs d)).length ≤ rest.length :=
    length_dropWhile_le' _ _
  have h3 : (cs.dropWhile isWs).length ≤ cs.length := length_dropWhile_le' _ _
  rw [h1]
  have : (c :: rest).length ≤ cs.length := h ▸ h3
  simp at this ⊢
  omega

/-- `' '.join` of word lists. -/
def joinSp : List (List Char) → List Char
  | [] => []
  | [w] => w
  | w :: v :: ws => w ++ ' ' :: joinSp (v :: ws)

/-- First character made uppercase when it is a lowercase ASCII letter
(`question_text[0].upper() + question_text[1:]` guarded by `islower()`). -/
def capitalizeFirst : List Char → List Char
  | [] => []
  | c :: rest => if isAsciiLower c then upperC c :: rest else c :: rest

/-- Stages 1-3 of `clean_question`: strip markup-like tags and whitespace
(`re.sub(r'<[^>]+>', '', q).strip()`), collapse repeated words, take the
first `\?+\s+` split field and strip it. -/
def cqT3 (cs : List Char) : List Char :=
  pstrip (splitQFirst (collapseRepeats (pstrip (removeTags cs))))

/-- Append `'?'` when the first field does not already end with it. -/
def cqT4 (cs : List Char) : List Char :=
  if endsWithQ (cqT3 cs) then cqT3 cs else cqT3 cs ++ ['?']

/-- `re.sub(r'[.,;:]+$', '', ·)` applied next. -/
def cqT5 (cs : List Char) : List Char :=
  rstripWhile isPunctT (cqT4 cs)

/-- The second ensure-`'?'` step (`rstrip('.') + '?'` when needed). -/
def cqT6 (cs : List Char) : List Char :=
  if endsWithQ (cqT5 cs) then cqT5 cs else rstripWhile (· == '.') (cqT5 cs) ++ ['?']

/-- First-letter capitalisation stage. -/
def cqT7 (cs : List Char) : List Char :=
  capitalizeFirst (cqT6 cs)

/-- `clean_question` from `app/routes.py`: empty input returns `""`; then
the staged cleaning, and finally truncation to the first 12 words plus
`"...?"` when the result exceeds 15 words. -/
def cleanQ (cs : List Char) : List Char :=
  if cs = [] then []
  else if 15 < (pwords (cqT7 cs)).length then
    joinSp ((pwords (cqT7 cs)).take 12) ++ ['.', '.', '.', '?']
  else cqT7 cs

/-- `clean_question` over `String`. -/
def clean_question (s : String) : String := ⟨cleanQ s.data⟩

/-! ### Generic decomposition lemmas used by the cleaning development -/

/-- `dropWhile` is a back part of the list. -/
theorem exists_front_dropWhile (p : Char → Bool) (cs : List Char) :
    ∃ s, s ++ cs.dropWhile p = cs :=
  ⟨cs.takeWhile p, List.takeWhile_append_dropWhile p cs⟩

/-- `rstripWhile` is a front part of the list. -/
theorem exists_back_rstripWhile (p : Char → Bool) (cs : List Char) :
    ∃ t, rstripWhile p cs ++ t = cs := by
  refine ⟨(cs.reverse.takeWhile p).reverse, ?_⟩
  have h2 := congrArg List.reverse (List.takeWhile_append_dropWhile p cs.reverse)
  rw [List.reverse_append, List.reverse_reverse] at h2
  exact h2

/-- `pstrip cs` sits in the middle of `cs`. -/
theorem exists_affix_pstrip (cs : List Char) :
    ∃ s t, s ++ pstrip cs ++ t = cs := by
  obtain ⟨t, ht⟩ := exists_back_rstripWhile isWs (cs.dropWhile isWs)
  obtain ⟨s, hs⟩ := exists_front_dropWhile isWs cs
  refine ⟨s, t, ?_⟩
  calc s ++ pstrip cs ++ t
      = s ++ (rstripWhile isWs (cs.dropWhile isWs) ++ t) := by
        simp [pstrip, List.append_assoc]
    _ = s ++ cs.dropWhile isWs := by rw [ht]
    _ = cs := hs

/-- If the last element fails `p` then `rstripWhile p` is the identity. -/
theorem rstripWhile_eq_self (p : Char → Bool) (cs : List Char) (c : Char)
    (hl : cs.getLast? = some c) (hp : p c = false) : rstripWhile p cs = cs := by
  unfold rstripWhile
  have h1 : cs.reverse.head? = some c := by rw [List.head?_reverse]; exact hl
  obtain ⟨r, hr⟩ : ∃ r, cs.reverse = c :: r := by
    cases hrev : cs.reverse with
    | nil => rw [hrev] at h1; simp at h1
    | cons a r =>
      rw [hrev] at h1; simp at h1; exact ⟨r, by rw [h1]⟩
  rw [hr, List.dropWhile_cons, hp]
  simp [← hr]

/-- The last character of an `rstripWhile` result fails the predicate. -/
theorem rstripWhile_last_false (p : Char → Bool) (cs : List Char) (c : Char)
    (h : (rstripWhile p cs).getLast? = some c) : p c = false := by
  unfold rstripWhile at h
  rw [← List.head?_reverse] at h
  simp only [List.reverse_reverse] at h
  cases hd : cs.reverse.dropWhile p with
  | nil => rw [hd] at h; simp at h
  | cons a r =>
    rw [hd] at h
    simp at h
    rw [← h]
    exact dropWhile_head_false hd

/-- The head of `pstrip` output is not whitespace. -/
theorem pstrip_head_not_ws (cs : List Char) (c : Char) (rest : List Char)
    (h : pstrip cs = c :: rest) : isWs c = false := by
  obtain ⟨t, ht⟩ := exists_back_rstripWhile isWs (cs.dropWhile isWs)
  unfold pstrip at h
  rw [h] at ht
  exact dropWhile_head_false (l := cs) ht.symm

/-- The last character of `pstrip` output is not whitespace. -/
theorem pstrip_last_not_ws (cs : List Char) (c : Char)
    (h : (pstrip cs).getLast? = some c) : isWs c = false :=
  rstripWhile_last_false isWs (cs.dropWhile isWs) c h

/-! ### Absence of `'?'` followed by whitespace

A string on which `re.split(r'\?+\s+', ·)` finds no match is exactly one
whose adjacent pairs all satisfy `QR`. -/

/-- No `'?'` immediately followed by a whitespace character. -/
def QR (a b : Char) : Prop := ¬(a = '?' ∧ isWs b = true)

instance : DecidableRel QR := fun _ _ => by unfold QR; infer_instance

/-- `QR` holds whenever the right character is not whitespace. -/
theorem qr_of_not_ws {a b : Char} (h : isWs b = false) : QR a b := by
  simp [QR, h]

/-- A list of non-whitespace characters is a `QR`-chain. -/
theorem chainQ_of_all_not_ws (l : List Char) (h : ∀ b ∈ l, isWs b = false) :
    List.Chain' QR l := by
  induction l with
  | nil => simp
  | cons a l ih =>
    rw [List.chain'_cons']
    refine ⟨fun y hy => ?_, ih (fun b hb => h b (List.mem_cons_of_mem a hb))⟩
    cases l with
    | nil => simp at hy
    | cons d r =>
      simp at hy
      exact qr_of_not_ws (hy ▸ h d (by simp))

/-- A chain restricted to a front part. -/
theorem chain_front {R : Char → Char → Prop} {l r : List Char}
    (h : List.Chain' R (l ++ r)) : List.Chain' R l :=
  (List.chain'_append.mp h).1

/-- A chain restricted to a back part. -/
theorem chain_back {R : Char → Char → Prop} {l r : List Char}
    (h : List.Chain' R (l ++ r)) : List.Chain' R r :=
  (List.chain'_append.mp h).2.1

/-- `pstrip` preserves `QR`-chains. -/
theorem chainQ_pstrip {cs : List Char} (h : List.Chain' QR cs) :
    List.Chain' QR (pstrip cs) := by
  obtain ⟨s, t, hst⟩ := exists_affix_pstrip cs
  rw [← hst] at h
  exact chain_back (chain_front h)

/-- The first `\?+\s+` split field is always a `QR`-chain. -/
theorem chainQ_splitQFirst (cs : List Char) : List.Chain' QR (splitQFirst cs) := by
  induction cs with
  | nil => simp [splitQFirst]
  | cons c rest ih =>
    unfold splitQFirst
    by_cases hc : c = '?' ∧ qwsAfter rest = true
    · rw [if_pos hc]; exact List.chain'_nil
    · rw [if_neg hc]
      rw [List.chain'_cons']
      refine ⟨fun y hy => ?_, ih⟩
      by_cases hcq : c = '?'
      · have hq : qwsAfter rest = false := by
          cases hqw : qwsAfter rest with
          | false => rfl
          | true => exact absurd ⟨hcq, hqw⟩ hc
        cases rest with
        | nil => simp [splitQFirst] at hy
        | cons d r2 =>
          have hy' : d = y := by
            unfold splitQFirst at hy
            by_cases hd : d = '?' ∧ qwsAfter r2 = true
            · rw [if_pos hd] at hy; simp at hy
            · rw [if_neg hd] at hy; simpa using hy
          subst hy'
          by_cases hd : d = '?'
          · exact qr_of_not_ws (by rw [hd]; decide)
          · have hdw : qwsAfter (d :: r2) = isWs d := by
              unfold qwsAfter
              rw [List.dropWhile_cons, if_neg (by simpa using hd)]
            exact qr_of_not_ws (by rw [← hdw]; exact hq)
      · simp [QR, hcq]

/-- Inside a `QR`-chain starting at `'?'`, the `'?'`-run is never followed by
whitespace: the split pattern cannot match there. -/
theorem qwsAfter_false_of_chain (c : Char) (rest : List Char)
    (h : List.Chain' QR (c :: rest)) (hc : c = '?') : qwsAfter rest = false := by
  induction rest generalizing c with
  | nil => rfl
  | cons d r ih =>
    unfold qwsAfter
    rw [List.dropWhile_cons]
    by_cases hd : (d == '?') = true
    · rw [if_pos hd]
      have hd' : d = '?' := by simpa using hd
      have h2 : List.Chain' QR (d :: r) := (List.chain'_cons'.mp h).2
      have h3 := ih d h2 hd'
      unfold qwsAfter at h3
      exact h3
    · rw [if_neg hd]
      have hQ : QR c d := (List.chain'_cons'.mp h).1 d (by simp)
      subst hc
      simp [QR] at hQ
      exact hQ

/-- On a `QR`-chain the split finds no match: the first field is everything. -/
theorem splitQFirst_eq_self {cs : List Char} (h : List.Chain' QR cs) :
    splitQFirst cs = cs := by
  induction cs with
  | nil => rfl
  | cons c rest ih =>
    unfold splitQFirst
    have hcond : ¬(c = '?' ∧ qwsAfter rest = true) := by
      rintro ⟨hc, hq⟩
      rw [qwsAfter_false_of_chain c rest h hc] at hq
      exact Bool.false_ne_true hq
    rw [if_neg hcond]
    rw [ih (List.chain'_cons'.mp h).2]

/-! ### Trailing `'?'` -/

/-- Extract the `getLast?` equation from `endsWithQ`. -/
theorem getLastQ_of_endsWithQ {cs : List Char} (h : endsWithQ cs = true) :
    cs.getLast? = some '?' := by
  simpa [endsWithQ] using h

/-- Appending `'?'` makes `endsWithQ` true. -/
theorem endsWithQ_append_q (l : List Char) : endsWithQ (l ++ ['?']) = true := by
  simp [endsWithQ, List.getLast?_concat]

/-- The ensure-`'?'` step always ends with `'?'`. -/
theorem endsWithQ_ensure (t3 : List Char) :
    endsWithQ (if endsWithQ t3 then t3 else t3 ++ ['?']) = true := by
  by_cases h : endsWithQ t3
  · rw [if_pos h]; exact h
  · rw [if_neg h]; exact endsWithQ_append_q t3

/-- `endsWithQ` lists are nonempty. -/
theorem ne_nil_of_endsWithQ {cs : List Char} (h : endsWithQ cs = true) :
    cs ≠ [] := by
  intro hn
  rw [hn] at h
  simp [endsWithQ] at h

/-- Punctuation stripping does nothing to a string ending in `'?'`. -/
theorem rstrip_punct_of_endsQ {cs : List Char} (h : endsWithQ cs = true) :
    rstripWhile isPunctT cs = cs :=
  rstripWhile_eq_self isPunctT cs '?' (getLastQ_of_endsWithQ h) (by decide)

/-! ### Capitalisation -/

/-- Properties of ASCII upcasing of a lowercase letter. -/
theorem upperC_spec (c : Char) (h : isAsciiLower c = true) :
    isAsciiLower (upperC c) = false ∧ isWs (upperC c) = false ∧
    upperC c ≠ '?' ∧ upperC c ≠ '<' ∧ upperC c ≠ '>' := by
  have hb : 97 ≤ c.toNat ∧ c.toNat ≤ 122 := by simpa [isAsciiLower] using h
  unfold upperC
  rw [if_pos h]
  obtain ⟨h1, h2⟩ := hb
  set m := c.toNat with hm
  clear_value m
  interval_cases m <;> exact ⟨by decide, by decide, by decide, by decide, by decide⟩

/-- `capitalizeFirst` keeps a trailing `'?'`. -/
theorem capitalizeFirst_endsQ {cs : List Char} (h : endsWithQ cs = true) :
    endsWithQ (capitalizeFirst cs) = true := by
  cases cs with
  | nil => simpa [endsWithQ] using h
  | cons c rest =>
    cases rest with
    | nil =>
      have hc : c = '?' := by simpa [endsWithQ] using h
      subst hc
      decide
    | cons d r =>
      simp only [capitalizeFirst]
      by_cases hl : isAsciiLower c = true
      · rw [if_pos hl]
        simpa [endsWithQ, List.getLast?_cons_cons] using h
      · rw [if_neg hl]
        exact h

/-- `capitalizeFirst` preserves `QR`-chains. -/
theorem chainQ_capitalizeFirst {cs : List Char} (h : List.Chain' QR cs) :
    List.Chain' QR (capitalizeFirst cs) := by
  cases cs with
  | nil => exact h
  | cons c rest =>
    simp only [capitalizeFirst]
    by_cases hl : isAsciiLower c = true
    · rw [if_pos hl]
      rw [List.chain'_cons']
      refine ⟨fun y _ => ?_, (List.chain'_cons'.mp h).2⟩
      simp [QR, (upperC_spec c hl).2.2.1]
    · rw [if_neg hl]
      exact h

/-- The head after `capitalizeFirst` is never a lowercase ASCII letter. -/
theorem capitalizeFirst_head_not_lower (c : Char) (rest : List Char) :
    ∃ c', capitalizeFirst (c :: rest) = c' :: rest ∧ isAsciiLower c' = false ∧
      (isWs c = false → isWs c' = false) := by
  simp only [capitalizeFirst]
  by_cases hl : isAsciiLower c = true
  · rw [if_pos hl]
    exact ⟨upperC c, rfl, (upperC_spec c hl).1, fun _ => (upperC_spec c hl).2.1⟩
  · rw [if_neg hl]
    exact ⟨c, rfl, by simpa using hl, fun hw => hw⟩

/-- When the head is not lowercase, `capitalizeFirst` is the identity. -/
theorem capitalizeFirst_eq_self {cs : List Char}
    (h : ∀ c rest, cs = c :: rest → isAsciiLower c = false) :
    capitalizeFirst cs = cs := by
  cases cs with
  | nil => rfl
  | cons c rest =>
    simp only [capitalizeFirst]
    rw [if_neg (by rw [h c rest rfl]; exact Bool.false_ne_true)]

/-! ### Tag-freeness

`re.sub(r'<[^>]+>', '', s)` is the identity exactly when every `'<'` in `s`
either is followed immediately by `'>'` or has no `'>'` anywhere after it.
`TF` states that property; it holds of every `removeTags` output and is
preserved by all later cleaning stages. -/

/-- Every `'<'` is immediately followed by `'>'`, or no `'>'` follows it. -/
def TF (cs : List Char) : Prop :=
  ∀ l r, cs = l ++ '<' :: r → r = [] ∨ (∃ r', r = '>' :: r') ∨ '>' ∉ r

/-- The empty list is tag-free. -/
theorem TF_nil : TF ([] : List Char) := by
  intro l r h
  exact absurd h.symm (List.append_ne_nil_of_right_ne_nil l (by simp))

/-- Extend a tag-free list by one character on the left. -/
theorem TF_cons_of {c : Char} {cs : List Char} (hTF : TF cs)
    (hc : c = '<' → cs = [] ∨ (∃ r', cs = '>' :: r') ∨ '>' ∉ cs) :
    TF (c :: cs) := by
  intro l r h
  cases l with
  | nil =>
    simp at h
    obtain ⟨h1, h2⟩ := h
    exact h2 ▸ hc h1
  | cons a l' =>
    simp at h
    exact hTF l' r h.2

/-- A back part of a tag-free list is tag-free. -/
theorem TF_back {l r : List Char} (h : TF (l ++ r)) : TF r := by
  intro l2 r2 hdec
  exact h (l ++ l2) r2 (by rw [hdec, ← List.append_assoc])

/-- A front part of a tag-free list is tag-free. -/
theorem TF_front {l m : List Char} (h : TF (l ++ m)) : TF l := by
  intro l2 r2 hdec
  have h2 := h l2 (r2 ++ m) (by rw [hdec]; simp)
  rcases h2 with h2 | ⟨r', h2⟩ | h2
  · left
    rcases List.append_eq_nil.mp h2 with ⟨h3, _⟩
    exact h3
  · cases r2 with
    | nil => exact Or.inl rfl
    | cons a r3 =>
      simp at h2
      exact Or.inr (Or.inl ⟨r3, by rw [h2.1]⟩)
  · exact Or.inr (Or.inr fun hm => h2 (List.mem_append_left m hm))

/-- Appending `'>'`-free material preserves tag-freeness. -/
theorem TF_append_nogt {l m : List Char} (hl : TF l) (hm : '>' ∉ m) :
    TF (l ++ m) := by
  intro l2 r2 hdec
  rcases List.append_eq_append_iff.mp hdec with ⟨a', _, hm2⟩ | ⟨c', hl2, hr2⟩
  · -- the '<' lies in `m`: everything after it is inside `m`
    refine Or.inr (Or.inr fun hg => hm ?_)
    rw [hm2]
    exact List.mem_append_right a' (List.mem_cons_of_mem _ hg)
  · cases c' with
    | nil =>
      simp at hl2 hr2
      refine Or.inr (Or.inr fun hg => hm ?_)
      rw [← hr2]
      exact List.mem_cons_of_mem _ hg
    | cons x c'' =>
      obtain ⟨hx1', hx2⟩ := List.cons_eq_cons.mp hr2
      have hx1 : x = '<' := hx1'.symm
      have h2 := hl l2 c'' (by rw [hl2, hx1])
      rcases h2 with h2 | ⟨r', h2⟩ | h2
      · subst h2
        refine Or.inr (Or.inr fun hg => hm ?_)
        rw [hx2] at hg
        simpa using hg
      · subst h2
        rw [hx2]
        exact Or.inr (Or.inl ⟨r' ++ m, by simp⟩)
      · refine Or.inr (Or.inr fun hg => ?_)
        rw [hx2] at hg
        rcases List.mem_append.mp hg with hg | hg
        · exact h2 hg
        · exact hm hg

/-- Prepending `'<'`-free material preserves tag-freeness. -/
theorem TF_append_nolt {w z : List Char} (hw : '<' ∉ w) (hz : TF z) :
    TF (w ++ z) := by
  intro l2 r2 hdec
  rcases List.append_eq_append_iff.mp hdec with ⟨a', hl2, hm2⟩ | ⟨c', hl2, hr2⟩
  · exact hz a' r2 hm2
  · cases c' with
    | nil =>
      simp at hr2
      exact hz [] r2 (by simpa using hr2.symm)
    | cons x c'' =>
      have hx : x = '<' := (List.cons_eq_cons.mp hr2).1.symm
      exact absurd (hl2 ▸ List.mem_append_right l2 (hx ▸ List.mem_cons_self x c'')) hw

/-- `removeTags` never invents characters. -/
theorem mem_removeTags {a : Char} : ∀ {cs : List Char}, a ∈ removeTags cs → a ∈ cs := by
  intro cs
  induction cs using removeTags.induct with
  | case1 => intro h; simpa [removeTags] using h
  | case2 rest hemp ih =>
    rw [removeTags, if_pos rfl, if_pos hemp]
    intro h
    rcases List.mem_cons.mp h with h | h
    · exact h ▸ List.mem_cons_self _ _
    · exact List.mem_cons_of_mem _ (ih h)
  | case3 rest hemp htk ih =>
    rw [removeTags, if_pos rfl, if_neg hemp, if_pos htk]
    intro h
    rcases List.mem_cons.mp h with h | h
    · exact h ▸ List.mem_cons_self _ _
    · exact List.mem_cons_of_mem _ (ih h)
  | case4 rest hemp htk ih =>
    rw [removeTags, if_pos rfl, if_neg hemp, if_neg htk]
    intro h
    have h2 := ih h
    have h3 : a ∈ (rest.dropWhile (· != '>')) := List.mem_of_mem_tail h2
    exact List.mem_cons_of_mem _ ((List.dropWhile_sublist _).mem h3)
  | case5 c rest hc ih =>
    rw [removeTags, if_neg hc]
    intro h
    rcases List.mem_cons.mp h with h | h
    · exact h ▸ List.mem_cons_self _ _
    · exact List.mem_cons_of_mem _ (ih h)

/-- The output of `removeTags` is tag-free. -/
theorem TF_removeTags : ∀ cs : List Char, TF (removeTags cs) := by
  intro cs
  induction cs using removeTags.induct with
  | case1 => rw [removeTags]; exact TF_nil
  | case2 rest hemp ih =>
    rw [removeTags, if_pos rfl, if_pos hemp]
    refine TF_cons_of ih fun _ => Or.inr (Or.inr fun hg => ?_)
    have h2 : ∀ x ∈ rest, (x != '>') = true := List.dropWhile_eq_nil_iff.mp
      (by simpa using hemp)
    have h3 := h2 '>' (mem_removeTags hg)
    simp at h3
  | case3 rest hemp htk ih =>
    rw [removeTags, if_pos rfl, if_neg hemp, if_pos htk]
    refine TF_cons_of ih fun _ => ?_
    -- here the first character of `rest` is `'>'`
    cases hr : rest with
    | nil => rw [hr] at hemp; simp at hemp
    | cons d r2 =>
      have hd : d = '>' := by
        rw [hr] at htk
        by_cases hd : d = '>'
        · exact hd
        · rw [List.takeWhile_cons] at htk
          simp [hd] at htk
      subst hr
      subst hd
      rw [removeTags]
      rw [if_neg (by decide)]
      exact Or.inr (Or.inl ⟨removeTags r2, rfl⟩)
  | case4 rest hemp htk ih =>
    rw [removeTags, if_pos rfl, if_neg hemp, if_neg htk]
    exact ih
  | case5 c rest hc ih =>
    rw [removeTags, if_neg hc]
    exact TF_cons_of ih fun h => absurd h hc

/-- On a tag-free list, `removeTags` is the identity. -/
theorem removeTags_eq_self {cs : List Char} (h : TF cs) : removeTags cs = cs := by
  induction cs with
  | nil => rw [removeTags]
  | cons c rest ih =>
    have hrest : TF rest := TF_back (l := [c]) h
    by_cases hc : c = '<'
    · rcases h [] rest (by rw [hc]; rfl) with h2 | ⟨r', h2⟩ | h2
      · subst h2
        simp [removeTags, hc]
      · subst h2
        rw [removeTags, if_pos hc]
        rw [if_neg (by simp [List.dropWhile_cons_of_neg]), if_pos (by simp)]
        rw [ih hrest]
      · have hdw : rest.dropWhile (· != '>') = [] := by
          rw [List.dropWhile_eq_nil_iff]
          intro x hx
          simp
          intro hxg
          exact h2 (hxg ▸ hx)
        rw [removeTags, if_pos hc, if_pos (by simp [hdw])]
        rw [ih hrest]
    · rw [removeTags, if_neg hc, ih hrest]

/-- `eatReps` output is a back part of its input. -/
theorem exists_front_eatReps (w cs : List Char) : ∃ s, s ++ eatReps w cs = cs := by
  induction cs using eatReps.induct w with
  | case1 cs h => exact ⟨[], by rw [eatReps, if_pos h]; rfl⟩
  | case2 cs h hsw ih =>
    obtain ⟨s', hs'⟩ := ih
    refine ⟨cs.takeWhile isWs ++ ((cs.dropWhile isWs).take w.length ++ s'), ?_⟩
    rw [eatReps, if_neg h, if_pos hsw]
    rw [List.append_assoc, List.append_assoc, hs']
    rw [List.take_append_drop]
    exact List.takeWhile_append_dropWhile isWs cs
  | case3 cs h hsw => exact ⟨[], by rw [eatReps, if_neg h, if_neg hsw]; rfl⟩

/-- Characters of `collapseGo` output come from its input. -/
theorem mem_collapseGo {a : Char} :
    ∀ {p : Bool} {cs : List Char}, a ∈ collapseGo p cs → a ∈ cs := by
  intro p cs
  induction p, cs using collapseGo.induct with
  | case1 p => intro h; rw [collapseGo] at h; simp at h
  | case2 p c rest hcond hlen ih =>
    rw [collapseGo, if_pos hcond, if_pos hlen]
    intro h
    rcases List.mem_cons.mp h with h | h
    · exact h ▸ List.mem_cons_self _ _
    · exact List.mem_cons_of_mem _ (ih h)
  | case3 p c rest hcond hlen ih =>
    rw [collapseGo, if_pos hcond, if_neg hlen]
    intro h
    rcases List.mem_append.mp h with h | h
    · rcases List.mem_cons.mp h with h | h
      · exact h ▸ List.mem_cons_self _ _
      · exact List.mem_cons_of_mem _ ((List.takeWhile_sublist _).mem h)
    · have h2 := ih h
      obtain ⟨s2, hs2⟩ := exists_front_eatReps (c :: rest.takeWhile isWordC)
        (rest.dropWhile isWordC)
      have h3 : a ∈ rest.dropWhile isWordC := hs2 ▸ List.mem_append_right s2 h2
      exact List.mem_cons_of_mem _ ((List.dropWhile_sublist _).mem h3)
  | case4 p c rest hcond ih =>
    rw [collapseGo, if_neg hcond]
    intro h
    rcases List.mem_cons.mp h with h | h
    · exact h ▸ List.mem_cons_self _ _
    · exact List.mem_cons_of_mem _ (ih h)

/-- `collapseGo` preserves tag-freeness. -/
theorem TF_collapseGo : ∀ {p : Bool} {cs : List Char}, TF cs → TF (collapseGo p cs) := by
  intro p cs
  induction p, cs using collapseGo.induct with
  | case1 p => intro _; rw [collapseGo]; exact TF_nil
  | case2 p c rest hcond hlen ih =>
    intro hTF
    rw [collapseGo, if_pos hcond, if_pos hlen]
    have hc : c ≠ '<' := by
      intro hc
      rw [hc] at hcond
      exact absurd hcond.2 (by decide)
    exact TF_cons_of (ih (TF_back (l := [c]) hTF)) fun h => absurd h hc
  | case3 p c rest hcond hlen ih =>
    intro hTF
    rw [collapseGo, if_pos hcond, if_neg hlen]
    have hc : c ≠ '<' := by
      intro hc
      rw [hc] at hcond
      exact absurd hcond.2 (by decide)
    refine TF_append_nolt ?_ (ih ?_)
    · intro hmem
      rcases List.mem_cons.mp hmem with h | h
      · exact hc h.symm
      · have := List.mem_takeWhile_imp h
        rw [show ('<' : Char) = '<' from rfl] at this
        exact absurd this (by decide)
    · obtain ⟨s1, hs1⟩ := exists_front_dropWhile isWordC rest
      obtain ⟨s2, hs2⟩ := exists_front_eatReps (c :: rest.takeWhile isWordC)
        (rest.dropWhile isWordC)
      have : TF rest := TF_back (l := [c]) hTF
      rw [← hs1] at this
      have h2 : TF (rest.dropWhile isWordC) := TF_back this
      rw [← hs2] at h2
      exact TF_back h2
  | case4 p c rest hcond ih =>
    intro hTF
    rw [collapseGo, if_neg hcond]
    refine TF_cons_of (ih (TF_back (l := [c]) hTF)) fun hc => ?_
    rcases hTF [] rest (by rw [hc]; rfl) with h2 | ⟨r', h2⟩ | h2
    · subst h2
      rw [collapseGo]
      exact Or.inl rfl
    · subst h2
      rw [collapseGo]
      rw [if_neg (by simp [isWordC, isAsciiAlpha, isAsciiLower, isAsciiUpper, isAsciiDigit])]
      exact Or.inr (Or.inl ⟨collapseGo (isWordC '>') r', rfl⟩)
    · exact Or.inr (Or.inr fun hg => h2 (mem_collapseGo hg))

/-- `collapseRepeats` preserves tag-freeness. -/
theorem TF_collapseRepeats {cs : List Char} (h : TF cs) : TF (collapseRepeats cs) :=
  TF_collapseGo h

/-- The first split field is a front part of the input. -/
theorem exists_back_splitQFirst (cs : List Char) : ∃ t, splitQFirst cs ++ t = cs := by
  induction cs with
  | nil => exact ⟨[], rfl⟩
  | cons c rest ih =>
    unfold splitQFirst
    by_cases hc : c = '?' ∧ qwsAfter rest = true
    · exact ⟨c :: rest, by rw [if_pos hc]; rfl⟩
    · obtain ⟨t, ht⟩ := ih
      exact ⟨t, by rw [if_neg hc]; simpa using ht⟩

/-- `pstrip` preserves tag-freeness. -/
theorem TF_pstrip {cs : List Char} (h : TF cs) : TF (pstrip cs) := by
  obtain ⟨s, t, hst⟩ := exists_affix_pstrip cs
  rw [← hst] at h
  exact TF_back (TF_front h)

/-- `splitQFirst` preserves tag-freeness. -/
theorem TF_splitQFirst {cs : List Char} (h : TF cs) : TF (splitQFirst cs) := by
  obtain ⟨t, ht⟩ := exists_back_splitQFirst cs
  rw [← ht] at h
  exact TF_front h

/-- `capitalizeFirst` preserves tag-freeness. -/
theorem TF_capitalizeFirst {cs : List Char} (h : TF cs) : TF (capitalizeFirst cs) := by
  cases cs with
  | nil => exact h
  | cons c rest =>
    simp only [capitalizeFirst]
    by_cases hl : isAsciiLower c = true
    · rw [if_pos hl]
      intro l2 r2 hdec
      cases l2 with
      | nil =>
        obtain ⟨h1, h2⟩ := List.cons_eq_cons.mp hdec
        exact absurd h1 (upperC_spec c hl).2.2.2.1
      | cons x l3 =>
        obtain ⟨_, h2⟩ := List.cons_eq_cons.mp hdec
        exact h (c :: l3) r2 (by rw [h2]; rfl)
    · rw [if_neg hl]
      exact h

/-- Unfolding `pwords` when the stripped text is empty. -/
theorem pwords_eq_nil {cs : List Char} (h : cs.dropWhile isWs = []) :
    pwords cs = [] := by
  rw [pwords, h]

/-- Unfolding `pwords` when the stripped text is nonempty. -/
theorem pwords_eq_cons {cs : List Char} {c : Char} {rest : List Char}
    (h : cs.dropWhile isWs = c :: rest) :
    pwords cs = ((c :: rest).takeWhile (fun d => !isWs d)) ::
      pwords ((c :: rest).dropWhile (fun d => !isWs d)) := by
  rw [pwords, h]

/-- Words produced by `pwords` are nonempty, whitespace-free, and drawn from
the input. -/
theorem pwords_words : ∀ cs : List Char, ∀ w ∈ pwords cs,
    w ≠ [] ∧ (∀ c ∈ w, isWs c = false) ∧ ∀ c ∈ w, c ∈ cs := by
  intro cs
  induction cs using pwords.induct with
  | case1 cs h =>
    rw [pwords_eq_nil h]
    intro w hw
    simp at hw
  | case2 cs c rest h ih =>
    rw [pwords_eq_cons h]
    intro w hw
    have hsub : ∀ a ∈ (c :: rest), a ∈ cs := by
      intro a ha
      rw [← h] at ha
      exact (List.dropWhile_sublist _).mem ha
    rcases List.mem_cons.mp hw with hw | hw
    · subst hw
      have hc : isWs c = false := dropWhile_head_false h
      refine ⟨?_, ?_, ?_⟩
      · rw [List.takeWhile_cons_of_pos (by simp [hc])]
        simp
      · intro a ha
        have := List.mem_takeWhile_imp ha
        simpa using this
      · intro a ha
        exact hsub a ((List.takeWhile_sublist _).mem ha)
    · obtain ⟨h1, h2, h3⟩ := ih w hw
      refine ⟨h1, h2, fun a ha => hsub a ((List.dropWhile_sublist _).mem (h3 a ha))⟩

/-- Characters of a `joinSp` are separators or word characters. -/
theorem mem_joinSp {a : Char} : ∀ {W : List (List Char)},
    a ∈ joinSp W → a = ' ' ∨ ∃ w ∈ W, a ∈ w := by
  intro W
  induction W with
  | nil => intro h; simp [joinSp] at h
  | cons w W ih =>
    cases W with
    | nil =>
      intro h
      rw [joinSp] at h
      exact Or.inr ⟨w, by simp, h⟩
    | cons v ws =>
      intro h
      rw [joinSp] at h
      rcases List.mem_append.mp h with h | h
      · exact Or.inr ⟨w, by simp, h⟩
      · rcases List.mem_cons.mp h with h | h
        · exact Or.inl h
        · rcases ih h with h | ⟨w2, hw2, ha⟩
          · exact Or.inl h
          · exact Or.inr ⟨w2, List.mem_cons_of_mem _ hw2, ha⟩

/-- Gluing lemma for tag-freeness across a single join separator. -/
theorem TF_join_word {w rest2 J : List Char}
    (hTF : TF (w ++ rest2))
    (hhead : ∀ d r, rest2 = d :: r → isWs d = true)
    (hJ : TF J)
    (hJsub : ∀ a ∈ J, a = ' ' ∨ a ∈ rest2) :
    TF (w ++ ' ' :: J) := by
  intro l2 r2 hdec
  rcases List.append_eq_append_iff.mp hdec with ⟨a', _, hm2⟩ | ⟨c', hl2, hr2⟩
  · -- the '<' lies in the separator-plus-join part
    cases a' with
    | nil =>
      simp at hm2
    | cons x a'' =>
      obtain ⟨_, hm3⟩ := List.cons_eq_cons.mp hm2
      exact hJ a'' r2 hm3
  · cases c' with
    | nil =>
      simp at hr2
    | cons x c'' =>
      obtain ⟨hx1', hx2⟩ := List.cons_eq_cons.mp hr2
      have hx1 : x = '<' := hx1'.symm
      have h2 := hTF l2 (c'' ++ rest2) (by rw [hl2, hx1]; simp)
      rcases h2 with h2 | ⟨r', h2⟩ | h2
      · -- the '<' ends the word part and nothing follows in `w ++ rest2`
        have hc : c'' = [] ∧ rest2 = [] := List.append_eq_nil.mp h2
        refine Or.inr (Or.inr fun hg => ?_)
        rw [hx2, hc.1] at hg
        have hg2 : '>' ∈ ' ' :: J := by simpa using hg
        rcases List.mem_cons.mp hg2 with hg | hg
        · exact absurd hg (by decide)
        · rcases hJsub '>' hg with h3 | h3
          · exact absurd h3 (by decide)
          · rw [hc.2] at h3; simp at h3
      · -- immediate '>' : it must be inside the word part
        cases c'' with
        | nil =>
          rcases h2 with h2
          cases hrest : rest2 with
          | nil => rw [hrest] at h2; simp at h2
          | cons d r3 =>
            rw [hrest] at h2
            have hd : d = '>' := (List.cons_eq_cons.mp h2.symm).1.symm
            have := hhead d r3 hrest
            rw [hd] at this
            exact absurd this (by decide)
        | cons y c3 =>
          have hy : y = '>' := (List.cons_eq_cons.mp h2).1
          rw [hx2]
          exact Or.inr (Or.inl ⟨c3 ++ ' ' :: J, by rw [hy]; rfl⟩)
      · -- no '>' after the '<' inside `w ++ rest2`
        refine Or.inr (Or.inr fun hg => ?_)
        rw [hx2] at hg
        rcases List.mem_append.mp hg with hg | hg
        · exact h2 (List.mem_append_left rest2 hg)
        · rcases List.mem_cons.mp hg with hg | hg
          · exact absurd hg (by decide)
          · rcases hJsub '>' hg with h3 | h3
            · exact absurd h3 (by decide)
            · exact h2 (List.mem_append_right c'' h3)

/-- Tag-freeness survives re-joining the first `n` whitespace-split words. -/
theorem TF_join_take : ∀ cs : List Char, TF cs → ∀ n : ℕ,
    TF (joinSp ((pwords cs).take n)) := by
  intro cs
  induction cs using pwords.induct with
  | case1 cs h =>
    intro _ n
    rw [pwords_eq_nil h]
    simp [joinSp]
    exact TF_nil
  | case2 cs c rest h ih =>
    intro hTF n
    rw [pwords_eq_cons h]
    cases n with
    | zero => exact TF_nil
    | succ n =>
      rw [List.take_succ_cons]
      have hback : TF (c :: rest) := by
        obtain ⟨s, hs⟩ := exists_front_dropWhile isWs cs
        rw [h] at hs
        rw [← hs] at hTF
        exact TF_back hTF
      have hdecomp : (c :: rest).takeWhile (fun d => !isWs d) ++
          (c :: rest).dropWhile (fun d => !isWs d) = c :: rest :=
        List.takeWhile_append_dropWhile _ _
      cases htake : ((pwords ((c :: rest).dropWhile (fun d => !isWs d))).take n) with
      | nil =>
        rw [joinSp]
        rw [← hdecomp] at hback
        exact TF_front hback
      | cons x xs =>
        rw [joinSp]
        have hTFw : TF ((c :: rest).takeWhile (fun d => !isWs d) ++
            (c :: rest).dropWhile (fun d => !isWs d)) := by rw [hdecomp]; exact hback
        refine TF_join_word hTFw ?_ ?_ ?_
        · intro d r hdr
          have := dropWhile_head_false hdr
          simpa using this
        · have := ih (TF_back hTFw) n
          rw [htake] at this
          exact this
        · intro a ha
          rw [← htake] at ha
          rcases mem_joinSp ha with ha | ⟨w2, hw2, ha2⟩
          · exact Or.inl ha
          · exact Or.inr ((pwords_words _ w2 (List.mem_of_mem_take hw2)).2.2 a ha2)

/-- Appending non-whitespace material preserves `QR`-chains. -/
theorem chainQ_append_nonws {l r : List Char} (hl : List.Chain' QR l)
    (hr : ∀ b ∈ r, isWs b = false) : List.Chain' QR (l ++ r) := by
  rw [List.chain'_append]
  refine ⟨hl, chainQ_of_all_not_ws r hr, fun x _ y hy => ?_⟩
  cases r with
  | nil => simp at hy
  | cons d r2 =>
    simp at hy
    exact qr_of_not_ws (hy ▸ hr d (by simp))

/-- Joining whitespace-free words none of which ends in `'?'` gives a
`QR`-chain. -/
theorem chainQ_joinSp : ∀ W : List (List Char),
    (∀ w ∈ W, ∀ c ∈ w, isWs c = false) →
    (∀ w ∈ W, w.getLast? ≠ some '?') →
    List.Chain' QR (joinSp W) := by
  intro W
  induction W with
  | nil => intro _ _; simp [joinSp]
  | cons w W ih =>
    intro hw hq
    cases W with
    | nil =>
      rw [joinSp]
      exact chainQ_of_all_not_ws w (hw w (by simp))
    | cons v ws =>
      rw [joinSp]
      rw [List.chain'_append]
      refine ⟨chainQ_of_all_not_ws w (hw w (by simp)), ?_, ?_⟩
      · rw [List.chain'_cons']
        refine ⟨fun y _ => by simp [QR], ?_⟩
        exact ih (fun w2 hw2 => hw w2 (List.mem_cons_of_mem _ hw2))
          (fun w2 hw2 => hq w2 (List.mem_cons_of_mem _ hw2))
      · intro x hx y hy
        simp at hy
        subst hy
        intro hcon
        exact hq w (by simp) (by rw [hx, hcon.1])

/-- In a `QR`-chain, no whitespace-split word except possibly the last ends
with `'?'`. -/
theorem pwords_dropLast_not_q : ∀ cs : List Char, List.Chain' QR cs →
    ∀ w ∈ (pwords cs).dropLast, w.getLast? ≠ some '?' := by
  intro cs
  induction cs using pwords.induct with
  | case1 cs h =>
    intro _ w hw
    rw [pwords_eq_nil h] at hw
    simp at hw
  | case2 cs c rest h ih =>
    intro hch w hw
    rw [pwords_eq_cons h] at hw
    have hchcr : List.Chain' QR (c :: rest) := by
      obtain ⟨s, hs⟩ := exists_front_dropWhile isWs cs
      rw [h] at hs
      rw [← hs] at hch
      exact chain_back hch
    have hdecomp : (c :: rest).takeWhile (fun d => !isWs d) ++
        (c :: rest).dropWhile (fun d => !isWs d) = c :: rest :=
      List.takeWhile_append_dropWhile _ _
    have hchtw : List.Chain' QR ((c :: rest).takeWhile (fun d => !isWs d) ++
        (c :: rest).dropWhile (fun d => !isWs d)) := by rw [hdecomp]; exact hchcr
    cases hP : pwords ((c :: rest).dropWhile (fun d => !isWs d)) with
    | nil =>
      rw [hP] at hw
      simp at hw
    | cons p0 ps =>
      rw [hP] at hw
      have hw2 : w = (c :: rest).takeWhile (fun d => !isWs d) ∨
          w ∈ (p0 :: ps).dropLast := by
        cases hw3 : (p0 :: ps).dropLast with
        | nil =>
          rw [List.dropLast_cons₂, hw3] at hw
          simp at hw
          exact Or.inl hw
        | cons q0 qs =>
          rw [List.dropLast_cons₂, hw3] at hw
          rcases List.mem_cons.mp hw with hw | hw
          · exact Or.inl hw
          · exact Or.inr (hw3 ▸ hw)
      rcases hw2 with hw2 | hw2
      · subst hw2
        intro hlast
        have hdw : ∃ d r, (c :: rest).dropWhile (fun d => !isWs d) = d :: r := by
          cases hdw2 : (c :: rest).dropWhile (fun d => !isWs d) with
          | nil => rw [pwords_eq_nil (by rw [hdw2]; rfl)] at hP; simp at hP
          | cons d r => exact ⟨d, r, rfl⟩
        obtain ⟨d, r, hdr⟩ := hdw
        have hd : isWs d = true := by
          have := dropWhile_head_false hdr
          simpa using this
        have hbound := (List.chain'_append.mp hchtw).2.2
        have := hbound '?' (by rw [hlast]; rfl) d (by rw [hdr]; rfl)
        exact this ⟨rfl, hd⟩
      · exact ih (chain_back hchtw) w (hP ▸ hw2)

/-- Splitting a homogeneous run keeps it whole. -/
theorem takeWhile_all_append (p : Char → Bool) :
    ∀ (w : List Char) (b : Char) (t : List Char), (∀ a ∈ w, p a = true) →
    p b = false →
    (w ++ b :: t).takeWhile p = w ∧ (w ++ b :: t).dropWhile p = b :: t := by
  intro w
  induction w with
  | nil =>
    intro b t _ hb
    constructor
    · rw [List.nil_append, List.takeWhile_cons_of_neg (by simp [hb])]
    · rw [List.nil_append, List.dropWhile_cons_of_neg (by simp [hb])]
  | cons a w ih =>
    intro b t hw hb
    have ha : p a = true := hw a (by simp)
    obtain ⟨ih1, ih2⟩ := ih b t (fun x hx => hw x (List.mem_cons_of_mem _ hx)) hb
    constructor
    · rw [List.cons_append, List.takeWhile_cons_of_pos ha, ih1]
    · rw [List.cons_append, List.dropWhile_cons_of_pos ha, ih2]

/-- `pwords` ignores a leading whitespace character. -/
theorem pwords_cons_ws {c : Char} (t : List Char) (hc : isWs c = true) :
    pwords (c :: t) = pwords t := by
  have h : (c :: t).dropWhile isWs = t.dropWhile isWs :=
    List.dropWhile_cons_of_pos hc
  cases ht : t.dropWhile isWs with
  | nil => rw [pwords_eq_nil (by rw [h, ht]), pwords_eq_nil ht]
  | cons d r => rw [pwords_eq_cons (by rw [h, ht]), pwords_eq_cons ht]

/-- A nonempty all-non-whitespace string is a single word. -/
theorem pwords_all_nonws : ∀ cs : List Char, cs ≠ [] →
    (∀ c ∈ cs, isWs c = false) → pwords cs = [cs] := by
  intro cs hne hnw
  cases cs with
  | nil => exact absurd rfl hne
  | cons c rest =>
    have hc : isWs c = false := hnw c (by simp)
    have h : (c :: rest).dropWhile isWs = c :: rest :=
      List.dropWhile_cons_of_neg (by simp [hc])
    rw [pwords_eq_cons h]
    have htw : (c :: rest).takeWhile (fun d => !isWs d) = c :: rest := by
      have hdw : (c :: rest).dropWhile (fun d => !isWs d) = [] :=
        List.dropWhile_eq_nil_iff.mpr (fun x hx => by simp [hnw x hx])
      have := List.takeWhile_append_dropWhile (fun d => !isWs d) (c :: rest)
      rw [hdw, List.append_nil] at this
      exact this
    have hdw : (c :: rest).dropWhile (fun d => !isWs d) = [] :=
      List.dropWhile_eq_nil_iff.mpr (fun x hx => by simp [hnw x hx])
    rw [htw, hdw, @pwords_eq_nil [] rfl]

/-- `pwords` peels one separated word off the front. -/
theorem pwords_word_cons : ∀ (w : List Char) (t : List Char), w ≠ [] →
    (∀ c ∈ w, isWs c = false) → pwords (w ++ ' ' :: t) = w :: pwords t := by
  intro w t hne hnw
  cases w with
  | nil => exact absurd rfl hne
  | cons c w' =>
    have hc : isWs c = false := hnw c (by simp)
    have h : ((c :: w') ++ ' ' :: t).dropWhile isWs = c :: (w' ++ ' ' :: t) :=
      List.dropWhile_cons_of_neg (by simp [hc])
    rw [pwords_eq_cons h]
    obtain ⟨h1, h2⟩ := takeWhile_all_append (fun d => !isWs d) (c :: w') ' ' t
      (fun a ha => by simp [hnw a ha]) (by simp [isWs])
    have hcons : c :: (w' ++ ' ' :: t) = (c :: w') ++ ' ' :: t := rfl
    rw [hcons, h1, h2]
    rw [pwords_cons_ws t (by simp [isWs])]

/-- Word count of a join of words followed by a glued suffix. -/
theorem length_pwords_join : ∀ (W : List (List Char)) (s : List Char),
    W ≠ [] → (∀ w ∈ W, w ≠ [] ∧ ∀ c ∈ w, isWs c = false) →
    s ≠ [] → (∀ c ∈ s, isWs c = false) →
    (pwords (joinSp W ++ s)).length = W.length := by
  intro W
  induction W with
  | nil => intro s hne _ _ _; exact absurd rfl hne
  | cons w W ih =>
    intro s _ hw hs hsw
    cases W with
    | nil =>
      rw [joinSp]
      have hwne := (hw w (by simp)).1
      have hcat : w ++ s ≠ [] := by
        intro hcon
        exact hwne (List.append_eq_nil.mp hcon).1
      have hnw : ∀ c ∈ w ++ s, isWs c = false := by
        intro c hc
        rcases List.mem_append.mp hc with hc | hc
        · exact (hw w (by simp)).2 c hc
        · exact hsw c hc
      rw [pwords_all_nonws (w ++ s) hcat hnw]
      rfl
    | cons v ws =>
      rw [joinSp]
      have hassoc : (w ++ ' ' :: joinSp (v :: ws)) ++ s =
          w ++ ' ' :: (joinSp (v :: ws) ++ s) := by simp
      rw [hassoc]
      rw [pwords_word_cons w (joinSp (v :: ws) ++ s) (hw w (by simp)).1
        ((hw w (by simp)).2)]
      have := ih s (by simp) (fun w2 hw2 => hw w2 (List.mem_cons_of_mem _ hw2)) hs hsw
      simp only [List.length_cons]
      rw [this]
      simp

/-- The join of a word list starting with `c :: w'` starts with `c`. -/
theorem joinSp_cons_shape (c : Char) (w' : List Char) (W : List (List Char)) :
    ∃ z, joinSp ((c :: w') :: W) = c :: z := by
  cases W with
  | nil => exact ⟨w', rfl⟩
  | cons v ws => exact ⟨w' ++ ' ' :: joinSp (v :: ws), rfl⟩

/-- The first word of a string with non-whitespace head keeps that head. -/
theorem pwords_head_shape (c : Char) (rest : List Char) (hc : isWs c = false) :
    ∃ w' P', pwords (c :: rest) = (c :: w') :: P' := by
  have h : (c :: rest).dropWhile isWs = c :: rest :=
    List.dropWhile_cons_of_neg (by simp [hc])
  rw [pwords_eq_cons h]
  rw [List.takeWhile_cons_of_pos (by simp [hc])]
  exact ⟨rest.takeWhile (fun d => !isWs d), _, rfl⟩

/-- `pstrip` is the identity when both ends are non-whitespace. -/
theorem pstrip_eq_self {cs : List Char}
    (hh : ∀ c r, cs = c :: r → isWs c = false)
    (hl : ∀ c, cs.getLast? = some c → isWs c = false) : pstrip cs = cs := by
  cases cs with
  | nil => rfl
  | cons c r =>
    have hc : isWs c = false := hh c r rfl
    have hd : (c :: r).dropWhile isWs = c :: r :=
      List.dropWhile_cons_of_neg (by simp [hc])
    unfold pstrip
    rw [hd]
    obtain ⟨c2, hc2⟩ : ∃ c2, (c :: r).getLast? = some c2 :=
      ⟨(c :: r).getLast (by simp), List.getLast?_eq_getLast _ _⟩
    exact rstripWhile_eq_self isWs (c :: r) c2 hc2 (hl c2 hc2)

/-- The character-level facts established about every `cqT4` output. -/
theorem cqT4_facts (cs : List Char) :
    endsWithQ (cqT4 cs) = true ∧ List.Chain' QR (cqT4 cs) ∧ TF (cqT4 cs) ∧
    (∀ c r, cqT4 cs = c :: r → isWs c = false) := by
  have h3q : List.Chain' QR (cqT3 cs) := chainQ_pstrip (chainQ_splitQFirst _)
  have h3t : TF (cqT3 cs) :=
    TF_pstrip (TF_splitQFirst (TF_collapseRepeats (TF_pstrip (TF_removeTags _))))
  refine ⟨endsWithQ_ensure _, ?_, ?_, ?_⟩
  · unfold cqT4
    by_cases h : endsWithQ (cqT3 cs)
    · rw [if_pos h]; exact h3q
    · rw [if_neg h]
      exact chainQ_append_nonws h3q (by intro b hb; simp at hb; rw [hb]; rfl)
  · unfold cqT4
    by_cases h : endsWithQ (cqT3 cs)
    · rw [if_pos h]; exact h3t
    · rw [if_neg h]
      exact TF_append_nogt h3t (by simp)
  · intro c r h4
    unfold cqT4 at h4
    by_cases h : endsWithQ (cqT3 cs)
    · rw [if_pos h] at h4
      exact pstrip_head_not_ws _ c r h4
    · rw [if_neg h] at h4
      cases h3 : cqT3 cs with
      | nil =>
        rw [h3] at h4
        simp at h4
        rw [← h4.1]
        rfl
      | cons a r2 =>
        rw [h3] at h4
        obtain ⟨ha, _⟩ := List.cons_eq_cons.mp h4.symm
        rw [ha]
        exact pstrip_head_not_ws _ a r2 h3

/-- `cqT5` and `cqT6` never change anything: `cqT4` already ends in `'?'`. -/
theorem cqT6_eq_cqT4 (cs : List Char) : cqT6 cs = cqT4 cs := by
  have h4 := (cqT4_facts cs).1
  have h5 : cqT5 cs = cqT4 cs := rstrip_punct_of_endsQ h4
  unfold cqT6
  rw [h5, if_pos h4]

/-- The character-level facts established about every `cqT7` output. -/
theorem cqT7_facts (cs : List Char) :
    endsWithQ (cqT7 cs) = true ∧ List.Chain' QR (cqT7 cs) ∧ TF (cqT7 cs) ∧
    (∀ c r, cqT7 cs = c :: r → isWs c = false ∧ isAsciiLower c = false) := by
  obtain ⟨h1, h2, h3, h4⟩ := cqT4_facts cs
  have h7 : cqT7 cs = capitalizeFirst (cqT4 cs) := by rw [cqT7, cqT6_eq_cqT4]
  refine ⟨?_, ?_, ?_, ?_⟩
  · rw [h7]; exact capitalizeFirst_endsQ h1
  · rw [h7]; exact chainQ_capitalizeFirst h2
  · rw [h7]; exact TF_capitalizeFirst h3
  · intro c r hcr
    rw [h7] at hcr
    cases h4c : cqT4 cs with
    | nil =>
      rw [h4c] at hcr
      simp [capitalizeFirst] at hcr
    | cons a r2 =>
      obtain ⟨c2, hc2, hlow, hws⟩ := capitalizeFirst_head_not_lower a r2
      rw [h4c, hc2] at hcr
      obtain ⟨hcc, _⟩ := List.cons_eq_cons.mp hcr.symm
      rw [hcc]
      exact ⟨hws (h4 a r2 h4c), hlow⟩

/-- The full invariant of `clean_question` output on nonempty input: it ends
in `'?'`, contains no `'?'` followed by whitespace, is tag-free, starts with
a non-whitespace non-lowercase character, and has at most 15 words. -/
theorem cleanQ_facts (cs : List Char) (hne : cs ≠ []) :
    endsWithQ (cleanQ cs) = true ∧ List.Chain' QR (cleanQ cs) ∧ TF (cleanQ cs) ∧
    (∀ c r, cleanQ cs = c :: r → isWs c = false ∧ isAsciiLower c = false) ∧
    (pwords (cleanQ cs)).length ≤ 15 := by
  obtain ⟨h1, h2, h3, h4⟩ := cqT7_facts cs
  rw [cleanQ, if_neg hne]
  by_cases hlen : 15 < (pwords (cqT7 cs)).length
  · rw [if_pos hlen]
    -- truncation branch
    obtain ⟨c0, t7r, ht7⟩ : ∃ c0 t7r, cqT7 cs = c0 :: t7r := by
      cases h7 : cqT7 cs with
      | nil => rw [h7] at h1; simp [endsWithQ] at h1
      | cons a b => exact ⟨a, b, rfl⟩
    obtain ⟨hc0w, hc0l⟩ := h4 c0 t7r ht7
    obtain ⟨w1, P1, hP⟩ := pwords_head_shape c0 t7r hc0w
    rw [← ht7] at hP
    have htake12 : (pwords (cqT7 cs)).take 12 = (c0 :: w1) :: (P1.take 11) := by
      rw [hP]; rfl
    have hwords : ∀ w ∈ (pwords (cqT7 cs)).take 12,
        w ≠ [] ∧ ∀ c ∈ w, isWs c = false := by
      intro w hw
      have := pwords_words (cqT7 cs) w (List.mem_of_mem_take hw)
      exact ⟨this.1, this.2.1⟩
    have hlast : ∀ w ∈ (pwords (cqT7 cs)).take 12, w.getLast? ≠ some '?' := by
      intro w hw
      have hsub : (pwords (cqT7 cs)).take 12 = ((pwords (cqT7 cs)).dropLast).take 12 := by
        rw [List.dropLast_eq_take, List.take_take]
        congr 1
        omega
      rw [hsub] at hw
      exact pwords_dropLast_not_q (cqT7 cs) h2 w (List.mem_of_mem_take hw)
    refine ⟨?_, ?_, ?_, ?_, ?_⟩
    · simp [endsWithQ, List.getLast?_append]
    · exact chainQ_append_nonws
        (chainQ_joinSp _ (fun w hw => (hwords w hw).2) hlast)
        (by intro b hb; simp at hb; rcases hb with hb | hb <;> rw [hb] <;> rfl)
    · exact TF_append_nogt (TF_join_take (cqT7 cs) h3 12) (by simp)
    · intro c r hcr
      rw [htake12] at hcr
      obtain ⟨z, hz⟩ := joinSp_cons_shape c0 w1 (P1.take 11)
      rw [hz] at hcr
      obtain ⟨hcc, _⟩ := List.cons_eq_cons.mp hcr.symm
      rw [hcc]
      exact ⟨hc0w, hc0l⟩
    · have := length_pwords_join ((pwords (cqT7 cs)).take 12) ['.', '.', '.', '?']
        (by rw [htake12]; simp) hwords (by simp)
        (by intro c hc; simp at hc; rcases hc with hc | hc <;> rw [hc] <;> rfl)
      rw [this]
      rw [List.length_take]
      omega
  · rw [if_neg hlen]
    exact ⟨h1, h2, h3, fun c r h => h4 c r h, by omega⟩

/-- On input that already satisfies the cleaning invariants and is fixed by
the repeated-word collapse, `clean_question` is the identity. -/
theorem cleanQ_eq_self_of_facts (y : List Char)
    (h1 : endsWithQ y = true) (h2 : List.Chain' QR y) (h3 : TF y)
    (h4 : ∀ c r, y = c :: r → isWs c = false ∧ isAsciiLower c = false)
    (h5 : (pwords y).length ≤ 15)
    (hcol : collapseRepeats y = y) : cleanQ y = y := by
  have hyne : y ≠ [] := ne_nil_of_endsWithQ h1
  have hps : pstrip y = y :=
    pstrip_eq_self (fun c r h => (h4 c r h).1)
      (fun c hc => by
        have : c = '?' := by
          have := getLastQ_of_endsWithQ h1
          rw [this] at hc
          exact (Option.some_inj.mp hc).symm
        rw [this]; rfl)
  have ht3 : cqT3 y = y := by
    unfold cqT3
    rw [removeTags_eq_self h3, hps, hcol, splitQFirst_eq_self h2, hps]
  have ht4 : cqT4 y = y := by
    unfold cqT4
    rw [ht3, if_pos h1]
  have ht7 : cqT7 y = y := by
    rw [cqT7, cqT6_eq_cqT4, ht4]
    exact capitalizeFirst_eq_self (fun c r h => (h4 c r h).2)
  rw [cleanQ, if_neg hyne, ht7, if_neg (by omega)]

/-! ### Fuel-indexed executable twins

The scanners above use well-founded recursion, which the kernel does not
reduce, so concrete evaluations go through structurally recursive twins that
take a fuel argument (any fuel at least the input length agrees). -/

/-- Structural twin of `removeTags`. -/
def removeTagsX : ℕ → List Char → List Char
  | 0, cs => cs
  | _ + 1, [] => []
  | f + 1, c :: rest =>
    if c = '<' then
      if (rest.dropWhile (· != '>')).isEmpty then c :: removeTagsX f rest
      else if (rest.takeWhile (· != '>')).isEmpty then c :: removeTagsX f rest
      else removeTagsX f (rest.dropWhile (· != '>')).tail
    else c :: removeTagsX f rest

/-- Structural twin of `eatReps`. -/
def eatRepsX : ℕ → List Char → List Char → List Char
  | 0, _, cs => cs
  | f + 1, w, cs =>
    if (cs.takeWhile isWs).isEmpty then cs
    else if startsWithL w (cs.dropWhile isWs) then
      eatRepsX f w ((cs.dropWhile isWs).drop w.length)
    else cs

/-- Structural twin of `collapseGo`. -/
def collapseGoX : ℕ → Bool → List Char → List Char
  | 0, _, cs => cs
  | _ + 1, _, [] => []
  | f + 1, p, c :: rest =>
    if p = false ∧ isWordC c = true then
      if (eatRepsX f (c :: rest.takeWhile isWordC) (rest.dropWhile isWordC)).length
          = (rest.dropWhile isWordC).length then
        c :: collapseGoX f true rest
      else
        (c :: rest.takeWhile isWordC) ++
          collapseGoX f true (eatRepsX f (c :: rest.takeWhile isWordC) (rest.dropWhile isWordC))
    else c :: collapseGoX f (isWordC c) rest

/-- Structural twin of `pwords`. -/
def pwordsX : ℕ → List Char → List (List Char)
  | 0, _ => []
  | f + 1, cs =>
    match cs.dropWhile isWs with
    | [] => []
    | c :: rest =>
      ((c :: rest).takeWhile (fun d => !isWs d)) ::
        pwordsX f ((c :: rest).dropWhile (fun d => !isWs d))

/-- Fuel adequacy for `eatRepsX`. -/
theorem eatRepsX_agree (w : List Char) : ∀ cs : List Char, ∀ f : ℕ,
    cs.length ≤ f → eatRepsX f w cs = eatReps w cs := by
  intro cs
  induction cs using eatReps.induct w with
  | case1 cs h =>
    intro f _
    cases f with
    | zero => rw [eatReps, if_pos h]; rfl
    | succ f => rw [eatReps, if_pos h, eatRepsX, if_pos h]
  | case2 cs h hsw ih =>
    intro f hf
    have hlen : 1 ≤ cs.length := by
      cases cs with
      | nil => simp at h
      | cons a r => simp
    cases f with
    | zero => omega
    | succ f =>
      rw [eatReps, if_neg h, if_pos hsw, eatRepsX, if_neg h, if_pos hsw]
      refine ih f ?_
      have h1 : (cs.takeWhile isWs).length + (cs.dropWhile isWs).length = cs.length := by
        conv_rhs => rw [← List.takeWhile_append_dropWhile isWs cs]
        exact (List.length_append _ _).symm
      have h2 : (cs.takeWhile isWs).length ≠ 0 := by
        intro hz
        exact h (by simpa [List.isEmpty_iff, List.length_eq_zero] using hz)
      have h3 : ((cs.dropWhile isWs).drop w.length).length ≤ (cs.dropWhile isWs).length := by
        simp
      omega
  | case3 cs h hsw =>
    intro f _
    cases f with
    | zero => rw [eatReps, if_neg h, if_neg hsw]; rfl
    | succ f => rw [eatReps, if_neg h, if_neg hsw, eatRepsX, if_neg h, if_neg hsw]

/-- Fuel adequacy for `removeTagsX`. -/
theorem removeTagsX_agree : ∀ cs : List Char, ∀ f : ℕ,
    cs.length ≤ f → removeTagsX f cs = removeTags cs := by
  intro cs
  induction cs using removeTags.induct with
  | case1 =>
    intro f _
    cases f with
    | zero => rw [removeTags]; rfl
    | succ f => rw [removeTags]; rfl
  | case2 rest hemp ih =>
    intro f hf
    have hf0 : rest.length + 1 ≤ f := by simpa using hf
    cases f with
    | zero => omega
    | succ f =>
      rw [removeTags, if_pos rfl, if_pos hemp, removeTagsX, if_pos rfl, if_pos hemp]
      rw [ih f (by omega)]
  | case3 rest hemp htk ih =>
    intro f hf
    have hf0 : rest.length + 1 ≤ f := by simpa using hf
    cases f with
    | zero => omega
    | succ f =>
      rw [removeTags, if_pos rfl, if_neg hemp, if_pos htk,
        removeTagsX, if_pos rfl, if_neg hemp, if_pos htk]
      rw [ih f (by omega)]
  | case4 rest hemp htk ih =>
    intro f hf
    have hf0 : rest.length + 1 ≤ f := by simpa using hf
    cases f with
    | zero => omega
    | succ f =>
      rw [removeTags, if_pos rfl, if_neg hemp, if_neg htk,
        removeTagsX, if_pos rfl, if_neg hemp, if_neg htk]
      refine ih f ?_
      have h1 : (rest.dropWhile (· != '>')).length ≤ rest.length :=
        length_dropWhile_le' _ _
      have h2 : (rest.dropWhile (· != '>')).tail.length ≤
          (rest.dropWhile (· != '>')).length := length_tail_le _
      omega
  | case5 c rest hc ih =>
    intro f hf
    have hf0 : rest.length + 1 ≤ f := by simpa using hf
    cases f with
    | zero => omega
    | succ f =>
      rw [removeTags, if_neg hc, removeTagsX, if_neg hc, ih f (by omega)]

/-- Fuel adequacy for `collapseGoX`. -/
theorem collapseGoX_agree : ∀ (p : Bool) (cs : List Char), ∀ f : ℕ,
    cs.length ≤ f → collapseGoX f p cs = collapseGo p cs := by
  intro p cs
  induction p, cs using collapseGo.induct with
  | case1 p =>
    intro f _
    cases f with
    | zero => rw [collapseGo]; rfl
    | succ f => rw [collapseGo]; rfl
  | case2 p c rest hcond hlen ih =>
    intro f hf
    have hf0 : rest.length + 1 ≤ f := by simpa using hf
    cases f with
    | zero => omega
    | succ f =>
      have hdrop : (rest.dropWhile isWordC).length ≤ f := by
        have h9 := length_dropWhile_le' isWordC rest
        omega
      have heat : eatRepsX f (c :: rest.takeWhile isWordC) (rest.dropWhile isWordC) =
          eatReps (c :: rest.takeWhile isWordC) (rest.dropWhile isWordC) :=
        eatRepsX_agree _ _ f hdrop
      rw [collapseGo, if_pos hcond, if_pos hlen, collapseGoX, if_pos hcond, heat,
        if_pos hlen, ih f (by omega)]
  | case3 p c rest hcond hlen ih =>
    intro f hf
    have hf0 : rest.length + 1 ≤ f := by simpa using hf
    cases f with
    | zero => omega
    | succ f =>
      have hdrop : (rest.dropWhile isWordC).length ≤ f := by
        have h9 := length_dropWhile_le' isWordC rest
        omega
      have heat : eatRepsX f (c :: rest.takeWhile isWordC) (rest.dropWhile isWordC) =
          eatReps (c :: rest.takeWhile isWordC) (rest.dropWhile isWordC) :=
        eatRepsX_agree _ _ f hdrop
      have hrec : (eatReps (c :: rest.takeWhile isWordC) (rest.dropWhile isWordC)).length ≤ f :=
        le_trans (eatReps_length_le _ _) hdrop
      rw [collapseGo, if_pos hcond, if_neg hlen, collapseGoX, if_pos hcond, heat,
        if_neg hlen, ih f hrec]
  | case4 p c rest hcond ih =>
    intro f hf
    have hf0 : rest.length + 1 ≤ f := by simpa using hf
    cases f with
    | zero => omega
    | succ f =>
      rw [collapseGo, if_neg hcond, collapseGoX, if_neg hcond, ih f (by omega)]

/-- Fuel adequacy for `pwordsX`. -/
theorem pwordsX_agree : ∀ cs : List Char, ∀ f : ℕ,
    cs.length ≤ f → pwordsX f cs = pwords cs := by
  intro cs
  induction cs using pwords.induct with
  | case1 cs h =>
    intro f _
    cases f with
    | zero => rw [pwords_eq_nil h]; rfl
    | succ f => rw [pwords_eq_nil h, pwordsX, h]
  | case2 cs c rest h ih =>
    intro f hf
    have hlen : (c :: rest).length ≤ cs.length := by
      have := length_dropWhile_le' isWs cs
      rw [h] at this
      exact this
    have hlen2 : rest.length + 1 ≤ cs.length := by simpa using hlen
    cases f with
    | zero => omega
    | succ f =>
      rw [pwords_eq_cons h, pwordsX, h]
      dsimp only
      have harg : ((c :: rest).dropWhile (fun d => !isWs d)).length ≤ f := by
        have h2 : ((c :: rest).dropWhile (fun d => !isWs d)).length ≤ (c :: rest).length :=
          length_dropWhile_le' _ _
      -- the dropped word is nonempty, so at least one character disappears
        have hc : isWs c = false := dropWhile_head_false h
        have h3 : (c :: rest).dropWhile (fun d => !isWs d) = rest.dropWhile (fun d => !isWs d) :=
          List.dropWhile_cons_of_pos (by simp [hc])
        have h4 : (rest.dropWhile (fun d => !isWs d)).length ≤ rest.length :=
          length_dropWhile_le' _ _
        rw [h3]
        omega
      rw [ih f harg]

/-- Kernel-evaluable rewriting of `removeTags`. -/
theorem removeTags_evalX (cs : List Char) :
    removeTags cs = removeTagsX cs.length cs :=
  (removeTagsX_agree cs cs.length le_rfl).symm

/-- Kernel-evaluable rewriting of `collapseRepeats`. -/
theorem collapseRepeats_evalX (cs : List Char) :
    collapseRepeats cs = collapseGoX cs.length false cs :=
  (collapseGoX_agree false cs cs.length le_rfl).symm

/-- Kernel-evaluable rewriting of `pwords`. -/
theorem pwords_evalX (cs : List Char) : pwords cs = pwordsX cs.length cs :=
  (pwordsX_agree cs cs.length le_rfl).symm

/-- C3, counterexample: `clean_question` is not idempotent.  On
`"x a a ab ab"` the repeated-word pattern `(\\b\\w+\\b)(?:\\s+\\1)+` matches
`"a a a"` with the last `"a"` being the first letter of `"ab"` (the
backreference carries no trailing word boundary), so one pass yields
`"X ab ab?"`; a second pass collapses the now-adjacent `"ab ab"` to
`"X ab?"`. -/
theorem clean_question_not_idempotent :
    clean_question (clean_question "x a a ab ab") ≠ clean_question "x a a ab ab" := by
  simp only [clean_question, cleanQ, cqT7, cqT6, cqT5, cqT4, cqT3,
    collapseRepeats_evalX, pwords_evalX, removeTags_evalX]
  decide

/-- C3, amended: `clean_question` is idempotent on every input whose cleaned
form is left unchanged by the repeated-word-collapse stage (the only stage
that can rewrite a cleaned string again). -/
theorem clean_question_idempotent_of_collapse_fixed (s : String)
    (h : collapseRepeats (clean_question s).data = (clean_question s).data) :
    clean_question (clean_question s) = clean_question s := by
  unfold clean_question at h ⊢
  by_cases hne : s.data = []
  · rw [hne]
    rfl
  · obtain ⟨h1, h2, h3, h4, h5⟩ := cleanQ_facts s.data hne
    have := cleanQ_eq_self_of_facts (cleanQ s.data) h1 h2 h3 h4 h5 h
    rw [this]

/-- C3, witness: a concrete run of the amended idempotence theorem. -/
theorem clean_question_idempotent_witness :
    collapseRepeats (clean_question "what is software testing").data =
      (clean_question "what is software testing").data ∧
    clean_question (clean_question "what is software testing") =
      clean_question "what is software testing" :=
  ⟨by
    simp only [clean_question, cleanQ, cqT7, cqT6, cqT5, cqT4, cqT3,
      collapseRepeats_evalX, pwords_evalX, removeTags_evalX]
    decide,
   clean_question_idempotent_of_collapse_fixed _ (by
    simp only [clean_question, cleanQ, cqT7, cqT6, cqT5, cqT4, cqT3,
      collapseRepeats_evalX, pwords_evalX, removeTags_evalX]
    decide)⟩

/-! ### `generate_distractors` from `app/routes.py`

All helpers below are structurally recursive (scanners take fuel, always
called with the input length), so everything evaluates in the kernel. -/

/-- `str.strip()` over `String`. -/
def pyStrip (s : String) : String := ⟨pstrip s.data⟩

/-- `str.lower()` over `String` (ASCII). -/
def pyLower (s : String) : String := ⟨lowerL s.data⟩

/-- `re.sub(r'[.,;:]+$', '', ·)` over `String`. -/
def rstripPunct (s : String) : String := ⟨rstripWhile isPunctT s.data⟩

/-- `str.capitalize()` over `String` (ASCII): first character upcased, the
rest downcased. -/
def pyCapitalize (s : String) : String :=
  match s.data with
  | [] => s
  | c :: r => ⟨upperC c :: lowerL r⟩

/-- Python `sub in s` substring test over `String`. -/
def pyContains (hay sub : String) : Bool := containsSub sub.data hay.data

/-- Scanner for `re.findall(r'\b[A-Za-z]+\b', ·)`: maximal letter runs whose
neighbours are non-word characters. -/
def letterRunsGo : ℕ → Bool → List Char → List String
  | 0, _, _ => []
  | _ + 1, _, [] => []
  | f + 1, prevW, c :: rest =>
    if prevW = false ∧ isAsciiAlpha c = true then
      match (c :: rest).dropWhile isAsciiAlpha with
      | [] => [⟨(c :: rest).takeWhile isAsciiAlpha⟩]
      | d :: after2 =>
        if isWordC d then letterRunsGo f true (d :: after2)
        else ⟨(c :: rest).takeWhile isAsciiAlpha⟩ :: letterRunsGo f false after2
    else letterRunsGo f (isWordC c) rest

/-- `re.findall(r'\b[A-Za-z]+\b', s)`. -/
def findLetterWords (s : String) : List String :=
  letterRunsGo s.data.length false s.data

/-- Scanner for `re.findall(r'\b[A-Z][a-z]+\b', ·)`. -/
def capRunsGo : ℕ → Bool → List Char → List String
  | 0, _, _ => []
  | _ + 1, _, [] => []
  | f + 1, prevW, c :: rest =>
    if prevW = false ∧ isAsciiUpper c = true ∧
        (rest.takeWhile isAsciiLower) ≠ [] then
      match rest.dropWhile isAsciiLower with
      | [] => [⟨c :: rest.takeWhile isAsciiLower⟩]
      | d :: after2 =>
        if isWordC d then capRunsGo f true (d :: after2)
        else ⟨c :: rest.takeWhile isAsciiLower⟩ :: capRunsGo f false after2
    else capRunsGo f (isWordC c) rest

/-- `re.findall(r'\b[A-Z][a-z]+\b', s)`. -/
def findCapWords (s : String) : List String :=
  capRunsGo s.data.length false s.data

/-- Keep the first occurrence of each string. -/
def dedupFirstGo (seen : List String) : List String → List String
  | [] => []
  | w :: rest =>
    if w ∈ seen then dedupFirstGo seen rest
    else w :: dedupFirstGo (w :: seen) rest

/-- `collections.Counter` key order (first occurrence). -/
def counterKeys (ws : List String) : List String := dedupFirstGo [] ws

/-- Stable insertion into a descending-count list: an element goes in front
of the first entry with a count not larger than its own (elements inserted
later came earlier in the original list). -/
def insDesc (x : String × ℕ) : List (String × ℕ) → List (String × ℕ)
  | [] => [x]
  | y :: rest => if y.2 ≤ x.2 then x :: y :: rest else y :: insDesc x rest

/-- `Counter(ws).most_common()`: pairs sorted by count descending, ties in
first-occurrence order (CPython's sort is stable). -/
def mostCommon (ws : List String) : List (String × ℕ) :=
  ((counterKeys ws).map (fun w => (w, ws.count w))).foldr insDesc []

/-- The stopword set of the context-candidate phase. -/
def gdStopwords : List String := ["the", "and", "for", "with", "this", "that", "which"]

/-- The frequent-context-word candidate collection loop, with its early
break once `limit` candidates have been collected. -/
def collectCtx (answerLower : String) (limit : ℕ) :
    List (String × ℕ) → List String → List String
  | [], acc => acc
  | (w, _) :: rest, acc =>
    if pyLower w ≠ answerLower ∧ 3 < w.length ∧ pyLower w ∉ gdStopwords then
      if limit ≤ (acc ++ [w]).length then acc ++ [w]
      else collectCtx answerLower limit rest (acc ++ [w])
    else collectCtx answerLower limit rest acc

/-- The fixed topic lexicon of `generate_distractors`. -/
def topic_distractors : List (String × List String) :=
  [("testing", ["development", "debugging", "quality assurance", "verification", "validation"]),
   ("date", ["yesterday", "tomorrow", "next week", "last month", "next meeting"]),
   ("developer", ["tester", "designer", "manager", "analyst", "architect"]),
   ("white box", ["black box", "gray box", "unit testing", "integration testing", "system testing"])]

/-- Inner loop of the lexicon phase: add each unseen term, stopping once the
limit is reached (the `break` checks after every term, added or not). -/
def addTerms (limit : ℕ) : List String → List String → List String
  | [], acc => acc
  | t :: ts, acc =>
    if t ∈ acc then
      if limit ≤ acc.length then acc else addTerms limit ts acc
    else
      if limit ≤ (acc ++ [t]).length then acc ++ [t]
      else addTerms limit ts (acc ++ [t])

/-- Outer loop of the lexicon phase: a topic fires when its keyword occurs
in the lowercased answer or in any candidate collected so far. -/
def addTopics (answerLower : String) (limit : ℕ) :
    List (String × List String) → List String → List String
  | [], acc => acc
  | (topic, terms) :: rest, acc =>
    if pyContains answerLower topic ∨ acc.any (fun w => pyContains w topic) then
      addTopics answerLower limit rest (addTerms limit terms acc)
    else addTopics answerLower limit rest acc

/-- The candidate set of `generate_distractors` (insertion order), before
Python's hash-dependent `list(...)` enumeration. -/
def gdCandidates (answer : String) (num_choices : ℕ) (context : Option String) : List String :=
  let answer_text := pyStrip answer
  let answer_clean := rstripPunct answer_text
  let answer_lower := pyLower answer_clean
  let ctxCands :=
    match context with
    | none => []
    | some ctx =>
      if ctx = "" then []
      else collectCtx answer_lower (num_choices * 3)
        ((mostCommon (findLetterWords ctx)).take 50) []
  addTopics answer_lower (num_choices * 4) topic_distractors ctxCands

/-- Case-insensitive order-preserving dedup of the final phase. -/
def dedupCI (seen : List String) : List String → List String
  | [] => []
  | d :: rest =>
    if pyLower d ∈ seen then dedupCI seen rest
    else d :: dedupCI (pyLower d :: seen) rest

/-- The per-candidate formatting of the final phase: strip trailing
punctuation and whitespace, drop empties and case-insensitive matches of the
answer, then match the answer's case convention. -/
def gdFormat (answerText answerLower : String) (d : String) : Option String :=
  let dClean := pyStrip (rstripPunct d)
  if dClean ≠ "" ∧ pyLower dClean ≠ answerLower then
    some (if (match answerText.data with
              | [] => false
              | c :: _ => isAsciiUpper c) = true
          then pyCapitalize dClean else pyLower dClean)
  else none

/-- `generate_distractors(answer, num_choices=3, context=None)` from
`app/routes.py`.  `setOrder` models the iteration order of the Python
`set` in `list(distractors)`, which depends on the interpreter's string
hashing; every run of one process uses one fixed such order. -/
def generate_distractors (answer : String) (num_choices : ℕ)
    (context : Option String) (setOrder : List String → List String) : List String :=
  let answer_text := pyStrip answer
  if answer_text = "" then []
  else
    let answer_clean := rstripPunct answer_text
    let answer_lower := pyLower answer_clean
    let cands := gdCandidates answer num_choices context
    let final_distractors :=
      ((setOrder cands).take (num_choices * 2)).filterMap
        (gdFormat answer_text answer_lower)
    (dedupCI [] final_distractors).take num_choices

/-- `filterMap` by a function that fixes every member is the identity. -/
theorem filterMap_id_of_mem {l : List String} {f : String → Option String}
    (h : ∀ x ∈ l, f x = some x) : l.filterMap f = l := by
  induction l with
  | nil => rfl
  | cons a l ih =>
    rw [List.filterMap_cons, h a (by simp)]
    rw [ih (fun x hx => h x (List.mem_cons_of_mem _ hx))]

/-- `dedupCI` is the identity on lists with pairwise-distinct lowercasings
none of which are already seen. -/
theorem dedupCI_eq_self : ∀ (l : List String) (seen : List String),
    (l.map pyLower).Nodup → (∀ x ∈ l, pyLower x ∉ seen) →
    dedupCI seen l = l := by
  intro l
  induction l with
  | nil => intro seen _ _; rfl
  | cons a l ih =>
    intro seen hnd hseen
    rw [dedupCI, if_neg (hseen a (by simp))]
    rw [List.map_cons] at hnd
    obtain ⟨hna, hnd2⟩ := List.nodup_cons.mp hnd
    refine congrArg _ (ih (pyLower a :: seen) hnd2 fun x hx => ?_)
    intro hmem
    rcases List.mem_cons.mp hmem with hmem | hmem
    · exact hna (hmem ▸ List.mem_map_of_mem pyLower hx)
    · exact hseen x (List.mem_cons_of_mem _ hx) hmem

/-- A duplicate-free list over a two-element universe has at most two
entries. -/
theorem length_le_two_of_nodup_pair {O : List String} {u v : String}
    (hnd : O.Nodup) (hsub : ∀ x ∈ O, x ∈ [u, v]) : O.length ≤ 2 := by
  have h1 : O.toFinset ⊆ [u, v].toFinset := by
    intro x hx
    rw [List.mem_toFinset] at hx ⊢
    exact hsub x hx
  have h2 := Finset.card_le_card h1
  rw [List.toFinset_card_of_nodup hnd] at h2
  have h3 : [u, v].toFinset.card ≤ 2 := by
    rw [List.toFinset_cons, List.toFinset_cons, List.toFinset_nil]
    refine le_trans (Finset.card_insert_le _ _) ?_
    simp [Finset.card_insert_le]
  omega

/-- C10: whenever the answer strips to nothing, `generate_distractors`
returns `[]`, for every count, every context (including `none`) and every
set-iteration order: the context is never examined. -/
theorem generate_distractors_blank_answer (answer : String) (n : ℕ)
    (ctx : Option String) (ord : List String → List String)
    (h : ∀ c ∈ answer.data, isWs c = true) :
    generate_distractors answer n ctx ord = [] := by
  have hstrip : pyStrip answer = "" := by
    unfold pyStrip pstrip
    rw [List.dropWhile_eq_nil_iff.mpr h]
    rfl
  simp only [generate_distractors]
  rw [if_pos hstrip]

/-- C10, witness. -/
theorem generate_distractors_blank_answer_witness :
    (∀ c ∈ ("  " : String).data, isWs c = true) ∧
    generate_distractors "  " 3 none id = [] :=
  ⟨by decide, generate_distractors_blank_answer "  " 3 none id (by decide)⟩

/-- C4: distractor generation is deterministic.  In this embedding every
source of variation is an explicit argument — the answer, the count, the
source text and the tie-break (set-iteration) order — and two runs with
identical arguments return identical sequences; the source function reads
no other state. -/
theorem generate_distractors_deterministic (a a' : String) (n n' : ℕ)
    (ctx ctx' : Option String) (ord ord' : List String → List String)
    (ha : a = a') (hn : n = n') (hctx : ctx = ctx') (hord : ord = ord') :
    generate_distractors a n ctx ord = generate_distractors a' n' ctx' ord' := by
  subst ha
  subst hn
  subst hctx
  subst hord
  rfl

/-- C4, witness. -/
theorem generate_distractors_deterministic_witness :
    generate_distractors "testing" 3 (some "...testing is important for quality...") id =
    generate_distractors "testing" 3 (some "...testing is important for quality...") id :=
  generate_distractors_deterministic _ _ _ _ _ _ _ _ rfl rfl rfl rfl

/-- The lexicon terms mapped to the topic keyword `"testing"`. -/
def testingLexicon : List String :=
  ["development", "debugging", "quality assurance", "verification", "validation"]

/-- The candidate set of the C9 scenario. -/
def c9Candidates : List String :=
  gdCandidates "testing" 3 (some "...testing is important for quality...")

/-- C9: `generate_distractors("testing", 3, "...testing is important for
quality...")` contains a `"testing"`-lexicon term, whatever iteration order
the Python set uses (any permutation): only two of the seven candidates are
not lexicon terms, so the three returned distractors must include one. -/
theorem generate_distractors_testing_lexicon (ord : List String → List String)
    (hperm : (ord c9Candidates).Perm c9Candidates) :
    ∃ x ∈ generate_distractors "testing" 3
      (some "...testing is important for quality...") ord, x ∈ testingLexicon := by
  have hc : c9Candidates = ["important", "quality", "development", "debugging",
      "quality assurance", "verification", "validation"] := by decide
  have hgd : generate_distractors "testing" 3
      (some "...testing is important for quality...") ord =
      (dedupCI [] (((ord c9Candidates).take 6).filterMap
        (gdFormat (pyStrip "testing")
          (pyLower (rstripPunct (pyStrip "testing")))))).take 3 := by
    simp only [generate_distractors]
    rw [if_neg (by decide)]
    rfl
  set L7 := ["important", "quality", "development", "debugging",
      "quality assurance", "verification", "validation"] with hL7
  have hTsub : ∀ x ∈ (ord c9Candidates).take 6, x ∈ L7 := by
    intro x hx
    rw [← hc]
    exact hperm.mem_iff.mp (List.mem_of_mem_take hx)
  have hTnd : ((ord c9Candidates).take 6).Nodup := by
    refine (List.take_sublist 6 _).nodup (hperm.symm.nodup ?_)
    rw [hc]
    decide
  have hTlen : ((ord c9Candidates).take 6).length = 6 := by
    rw [List.length_take, hperm.length_eq, hc]
    rfl
  have hform : ∀ x ∈ L7, gdFormat (pyStrip "testing")
      (pyLower (rstripPunct (pyStrip "testing"))) x = some x := by decide
  have hFT : ((ord c9Candidates).take 6).filterMap
      (gdFormat (pyStrip "testing") (pyLower (rstripPunct (pyStrip "testing")))) =
      (ord c9Candidates).take 6 :=
    filterMap_id_of_mem (fun x hx => hform x (hTsub x hx))
  have hlowid : ∀ x ∈ L7, pyLower x = x := by decide
  have hmapl : ((ord c9Candidates).take 6).map pyLower = (ord c9Candidates).take 6 := by
    rw [List.map_congr_left (fun x hx => hlowid x (hTsub x hx))]
    exact List.map_id _
  have hded : dedupCI [] ((ord c9Candidates).take 6) = (ord c9Candidates).take 6 :=
    dedupCI_eq_self _ [] (by rw [hmapl]; exact hTnd) (by simp)
  rw [hgd, hFT, hded]
  by_contra hcon
  push_neg at hcon
  have hOsub : ∀ x ∈ ((ord c9Candidates).take 6).take 3, x ∈ ["important", "quality"] := by
    intro x hx
    have hx7 := hTsub x (List.mem_of_mem_take hx)
    have hxlex := hcon x hx
    have hpair : ∀ x ∈ L7, x ∉ testingLexicon → x ∈ ["important", "quality"] := by decide
    exact hpair x hx7 hxlex
  have hOnd : (((ord c9Candidates).take 6).take 3).Nodup :=
    (List.take_sublist 3 _).nodup hTnd
  have hOlen : (((ord c9Candidates).take 6).take 3).length = 3 := by
    rw [List.length_take, hTlen]
    rfl
  have := length_le_two_of_nodup_pair hOnd hOsub
  omega

/-- C9, witness: with the identity (insertion) order the first three
distractors are `["important", "quality", "development"]`, which contains
the lexicon term `"development"`. -/
theorem generate_distractors_testing_lexicon_witness :
    (id c9Candidates).Perm c9Candidates ∧
    ∃ x ∈ generate_distractors "testing" 3
      (some "...testing is important for quality...") id, x ∈ testingLexicon :=
  ⟨List.Perm.refl _, generate_distractors_testing_lexicon id (List.Perm.refl _)⟩

/-! ### The `/generate` pipeline (`generate_questions` in `app/routes.py`)

The route is embedded as a function of the posted context and question
count, plus an environment that makes every non-deterministic input
explicit: the random tape consumed by `random.choice` / `random.shuffle`
(one natural number per draw), the per-attempt results of the two pretrained
pipelines (`qg_pipeline`, `qa_pipeline`), each of which may raise, and the
set-iteration order used inside `generate_distractors`.  The options-padding
`while` loop need not terminate, so the run takes a fuel bound for it and
returns `none` when that loop runs forever. -/

/-- Executable form of `removeTags` (same function, structural fuel). -/
def removeTagsE (cs : List Char) : List Char := removeTagsX cs.length cs

/-- Executable form of `collapseRepeats`. -/
def collapseRepeatsE (cs : List Char) : List Char := collapseGoX cs.length false cs

/-- Executable form of `pwords`. -/
def pwordsE (cs : List Char) : List (List Char) := pwordsX cs.length cs

/-- `removeTagsE` agrees with `removeTags`. -/
theorem removeTagsE_eq (cs : List Char) : removeTagsE cs = removeTags cs :=
  removeTagsX_agree cs cs.length le_rfl

/-- `collapseRepeatsE` agrees with `collapseRepeats`. -/
theorem collapseRepeatsE_eq (cs : List Char) : collapseRepeatsE cs = collapseRepeats cs :=
  collapseGoX_agree false cs cs.length le_rfl

/-- `pwordsE` agrees with `pwords`. -/
theorem pwordsE_eq (cs : List Char) : pwordsE cs = pwords cs :=
  pwordsX_agree cs cs.length le_rfl

/-- Executable form of `cleanQ` (stagewise identical, executable scanners). -/
def cleanQE (cs : List Char) : List Char :=
  if cs = [] then []
  else
    let t3 := pstrip (splitQFirst (collapseRepeatsE (pstrip (removeTagsE cs))))
    let t4 := if endsWithQ t3 then t3 else t3 ++ ['?']
    let t5 := rstripWhile isPunctT t4
    let t6 := if endsWithQ t5 then t5 else rstripWhile (· == '.') t5 ++ ['?']
    let t7 := capitalizeFirst t6
    if 15 < (pwordsE t7).length then
      joinSp ((pwordsE t7).take 12) ++ ['.', '.', '.', '?']
    else t7

/-- `cleanQE` agrees with `cleanQ`. -/
theorem cleanQE_eq (cs : List Char) : cleanQE cs = cleanQ cs := by
  unfold cleanQE cleanQ cqT7 cqT6 cqT5 cqT4 cqT3
  simp only [removeTagsE_eq, collapseRepeatsE_eq, pwordsE_eq, collapseRepeats]

/-- Executable `clean_question`. -/
def clean_questionE (s : String) : String := ⟨cleanQE s.data⟩

/-- `clean_questionE` agrees with `clean_question`. -/
theorem clean_questionE_eq (s : String) : clean_questionE s = clean_question s :=
  congrArg String.mk (cleanQE_eq s.data)

/-- Word count in the sense of `len(s.split())`. -/
def wordCountE (s : String) : ℕ := (pwordsE s.data).length

/-- Index of the last `'\n'` of a list known to contain one. -/
def lastNlIdx (run : List Char) : ℕ :=
  run.length - 1 - (run.reverse.takeWhile (· != '\n')).length

/-- Scanner for `re.split(r'\n\s*\n', ·)`: a split happens at a `'\n'`
whose following maximal whitespace run contains another `'\n'`; the match
greedily extends through the last `'\n'` of that run. -/
def splitParasGo : ℕ → List Char → List Char → List (List Char)
  | 0, acc, _ => [acc.reverse]
  | _ + 1, acc, [] => [acc.reverse]
  | f + 1, acc, c :: rest =>
    if c = '\n' ∧ '\n' ∈ rest.takeWhile isWs then
      acc.reverse ::
        splitParasGo f [] (rest.drop (lastNlIdx (rest.takeWhile isWs) + 1))
    else splitParasGo f (c :: acc) rest

/-- `re.split(r'\n\s*\n', ·)`. -/
def splitParas (cs : List Char) : List (List Char) :=
  splitParasGo (cs.length + 1) [] cs

/-- Scanner for `re.split(r'(?<=[.!?])\s+', ·)`: a split happens at a
maximal whitespace run directly preceded by `'.'`, `'!'` or `'?'`. -/
def splitSentsGo : ℕ → List Char → Option Char → List Char → List (List Char)
  | 0, acc, _, _ => [acc.reverse]
  | _ + 1, acc, _, [] => [acc.reverse]
  | f + 1, acc, prev, c :: rest =>
    if isWs c ∧ (prev = some '.' ∨ prev = some '!' ∨ prev = some '?') then
      acc.reverse :: splitSentsGo f [] (some c) (rest.dropWhile isWs)
    else splitSentsGo f (c :: acc) (some c) rest

/-- `re.split(r'(?<=[.!?])\s+', ·)`. -/
def splitSents (cs : List Char) : List (List Char) :=
  splitSentsGo (cs.length + 1) [] none cs

/-- The paragraph chunks: blank-line-delimited pieces kept when their word
count exceeds 10, then stripped. -/
def paraChunks (context : String) : List String :=
  ((splitParas context.data).filter
    (fun c => 10 < (pwordsE c).length)).map (fun c => ⟨pstrip c⟩)

/-- The sentence chunks: sentence pieces kept when their word count exceeds
8, then stripped. -/
def sentChunks (context : String) : List String :=
  ((splitSents context.data).filter
    (fun c => 8 < (pwordsE c).length)).map (fun c => ⟨pstrip c⟩)

/-- The chunk list `generate_questions` works on. -/
def chunksOf (context : String) : List String :=
  if paraChunks context = [] then sentChunks context else paraChunks context

/-- One multiple-choice question as assembled by the route. -/
structure FinalQuestion where
  qtype : String
  question : String
  options : List String
  answer : String
deriving DecidableEq, Repr

/-- The JSON payload shape the route returns (database and session writes go
to external collaborators and are not modelled). -/
structure Response where
  source : String
  questions : List FinalQuestion
deriving DecidableEq, Repr

/-- The environment of one generation run: the random tape, the per-attempt
synthesizer and extractor results (`Except` models a raised exception), and
the set-iteration order of `generate_distractors`. -/
structure Env where
  rand : ℕ → ℕ
  qg : ℕ → Except Unit String
  qa : ℕ → Except Unit (String × ℚ)
  setOrder : List String → List String

/-- The fallback stopword set. -/
def stopwordsFb : List String :=
  ["the", "and", "for", "with", "this", "that", "which", "what"]

/-- The four fallback question templates, chosen by `random.choice`. -/
def fallbackTemplate (i : ℕ) (term : String) : String :=
  match i with
  | 0 => "What is the significance of " ++ term ++ "?"
  | 1 => "How does " ++ term ++ " contribute?"
  | 2 => "What role does " ++ term ++ " play?"
  | _ => "Why is " ++ term ++ " important?"

/-- The fixed option set of the content-based fallback. -/
def fallbackOptions : List String :=
  ["Key element discussed", "Important role", "Central to topic", "Provides context"]

/-- `generate_content_based_fallback(context, num_questions)`: most frequent
long non-stopword terms, cycled through the four templates. -/
def generate_content_based_fallback (context : String) (num_questions : ℕ)
    (env : Env) (tape : ℕ) : Response :=
  let words := findLetterWords (pyLower context)
  let key0 := words.filter (fun w => w ∉ stopwordsFb ∧ 3 < w.length)
  let key_terms :=
    if key0 = [] then ["content", "topic", "subject", "information"]
    else ((mostCommon key0).take 8).map (fun p => p.1)
  let questions := (List.range num_questions).map (fun i =>
    { qtype := "MCQ",
      question := fallbackTemplate (env.rand (tape + i) % 4)
        (pyCapitalize (key_terms.getD (i % key_terms.length) "")),
      options := fallbackOptions,
      answer := "Key element discussed" : FinalQuestion })
  { source := "CONTENT_BASED", questions := questions }

/-- Python `[^a-zA-Z0-9]` complement test. -/
def isAsciiAlnum (c : Char) : Bool := isAsciiAlpha c || isAsciiDigit c

/-- `re.sub(r'^[^a-zA-Z0-9]*|[^a-zA-Z0-9]*$', '', ·)`: trim non-alphanumeric
characters from both ends. -/
def trimNonAlnum (s : String) : String :=
  ⟨rstripWhile (fun c => !isAsciiAlnum c)
    (s.data.dropWhile (fun c => !isAsciiAlnum c))⟩

/-- The banned substrings of the question validator. -/
def forbiddenSubs : List String := ["example:", "labels:", "step:"]

/-- `question_text.count('?')`. -/
def countQmarks (s : String) : ℕ := s.data.countP (· == '?')

/-- Swap two positions of a list (in-range positions only). -/
def listSwap (l : List String) (i j : ℕ) : List String :=
  match l[i]?, l[j]? with
  | some a, some b => (l.set i b).set j a
  | _, _ => l

/-- The indices `len-1, ..., 1` walked by `random.shuffle`. -/
def shuffleRounds : ℕ → List ℕ
  | 0 => []
  | 1 => []
  | n + 1 => n :: shuffleRounds n

/-- Fisher-Yates rounds: swap position `i` with a drawn `j ≤ i`. -/
def fyGo (env : Env) : List ℕ → ℕ → List String → List String × ℕ
  | [], tape, l => (l, tape)
  | i :: is, tape, l => fyGo env is (tape + 1) (listSwap l i (env.rand tape % (i + 1)))

/-- `random.shuffle`, with the tape position threaded through. -/
def pyShuffle (env : Env) (tape : ℕ) (l : List String) : List String × ℕ :=
  fyGo env (shuffleRounds l.length) tape l

/-- The `while len(options) < 4` padding loop.  When the context has
capitalized words one is drawn at random and appended only if fresh;
otherwise an `"Option {letter}"` placeholder is appended.  The loop has no
progress guarantee in the first branch, hence the fuel and the `none`
result standing for divergence. -/
def padOptions (env : Env) (capws : List String) (answer : String) :
    ℕ → ℕ → List String → Option (List String × ℕ)
  | 0, tape, opts => if 4 ≤ opts.length then some (opts, tape) else none
  | f + 1, tape, opts =>
    if 4 ≤ opts.length then some (opts, tape)
    else
      match capws with
      | [] =>
        padOptions env capws answer f tape
          (opts ++ ["Option " ++ String.singleton (Char.ofNat (65 + opts.length))])
      | _ :: _ =>
        let w := capws.getD (env.rand tape % capws.length) ""
        if w ∉ opts ∧ w ≠ answer then
          padOptions env capws answer f (tape + 1) (opts ++ [w])
        else padOptions env capws answer f (tape + 1) opts

/-- The confidence threshold `0.1` of the answer validator, written as a raw
rational so that concrete runs reduce in the kernel. -/
def oneTenth : ℚ := ⟨1, 10, by decide, by decide⟩

/-- The raw rational above is the threshold `1 / 10`. -/
theorem oneTenth_eq : oneTenth = 1 / 10 := by
  have h1 : (1 / 10 : ℚ).num = 1 := by norm_num
  have h2 : (1 / 10 : ℚ).den = 10 := by norm_num
  rw [oneTenth]
  exact (Rat.ext h1 h2).symm

/-- The state threaded through the attempt loop. -/
structure LoopState where
  tape : ℕ
  used : List String
  results : List FinalQuestion
deriving Repr, DecidableEq

/-- The fuel-free front of one attempt: draw a chunk, synthesize and clean a
question, validate it, extract and clean an answer, validate it, build the
raw option list.  `Sum.inl` is an early exit (exception or rejected
candidate); `Sum.inr` carries the data for padding and shuffling. -/
def attemptCore (ctx : String) (env : Env) (k : ℕ) (st : LoopState) :
    LoopState ⊕ (String × String × List String × ℕ) :=
  let tape1 := st.tape + 1
  match env.qg k with
  | .error _ => .inl { st with tape := tape1 }
  | .ok raw =>
    let qt := clean_questionE (pyStrip raw)
    if ¬(endsWithQ qt.data = true) ∨ wordCountE qt < 4 ∨ 20 < wordCountE qt ∨
        2 < countQmarks qt ∨ forbiddenSubs.any (fun w => pyContains (pyLower qt) w) ∨
        qt ∈ st.used then
      .inl { st with tape := tape1 }
    else
      match env.qa k with
      | .error _ => .inl { st with tape := tape1, used := qt :: st.used }
      | .ok (rawAns, score) =>
        let ans := trimNonAlnum (pyStrip rawAns)
        if ans = "" ∨ score < oneTenth ∨ 8 < wordCountE ans ∨
            pyLower ans ∈ (["yes", "no", "true", "false"] : List String) then
          .inl { st with tape := tape1, used := qt :: st.used }
        else
          let distractors := generate_distractors ans 3 (some ctx) env.setOrder
          let opts0 := ans ::
            distractors.filter (fun d => d ≠ "" ∧ pyLower d ≠ pyLower ans)
          .inr (qt, ans, dedupFirstGo [] opts0, tape1)

/-- One full attempt: the core, then option padding and shuffling. -/
def attempt (ctx : String) (env : Env) (pf : ℕ) (k : ℕ) (st : LoopState) :
    Option LoopState :=
  match attemptCore ctx env k st with
  | .inl st' => some st'
  | .inr (qt, ans, opts1, tape1) =>
    match padOptions env (findCapWords ctx) ans pf tape1 opts1 with
    | none => none
    | some (opts2, tape2) =>
      let shuffled := pyShuffle env tape2 opts2
      some { tape := shuffled.2, used := qt :: st.used,
             results := st.results ++
               [{ qtype := "MCQ", question := qt,
                  options := shuffled.1.take 4, answer := ans }] }

/-- The attempt loop over `range(num_questions * 5)`, with the early break
once enough questions are accepted. -/
def runLoop (ctx : String) (env : Env) (pf : ℕ) (n : ℕ) :
    List ℕ → LoopState → Option LoopState
  | [], st => some st
  | k :: ks, st =>
    if n ≤ st.results.length then some st
    else
      match attempt ctx env pf k st with
      | none => none
      | some st' => runLoop ctx env pf n ks st'

/-- `generate_questions` from `app/routes.py` (`POST /generate`): strip the
context, reject it when empty, chunk it, fall back when no chunk survives,
otherwise run the attempt loop and, when nothing validates, fall back.
`none` models the run that never returns (the padding loop spins). -/
def generate_questions (context : String) (num_questions : ℕ) (env : Env)
    (pf : ℕ) : Option Response :=
  let ctxS := pyStrip context
  if ctxS = "" then some { source := "ERROR_EMPTY", questions := [] }
  else if chunksOf ctxS = [] then
    some (generate_content_based_fallback ctxS num_questions env 0)
  else
    match runLoop ctxS env pf num_questions (List.range (num_questions * 5))
        { tape := 0, used := [], results := [] } with
    | none => none
    | some st =>
      if st.results = [] then
        some (generate_content_based_fallback ctxS num_questions env st.tape)
      else some { source := "AI", questions := st.results }

/-! ### Shuffle, padding and deduplication facts -/

/-- Unfold a successful indexed lookup into a take/cons/drop decomposition. -/
theorem getElem?_some_decomp {l : List String} {i : ℕ} {a : String}
    (h : l[i]? = some a) : i < l.length ∧ l = l.take i ++ a :: l.drop (i + 1) := by
  obtain ⟨hi, hval⟩ := List.getElem?_eq_some_iff.mp h
  refine ⟨hi, ?_⟩
  have h1 := List.take_append_drop i l
  rw [← List.getElem_cons_drop l i hi, hval] at h1
  exact h1.symm

/-- Writing `l[j]` to position `i` and `l[i]` to position `j` permutes `l`. -/
theorem set_set_perm {l : List String} {i j : ℕ} {a b : String}
    (ha : l[i]? = some a) (hb : l[j]? = some b) :
    ((l.set i b).set j a).Perm l := by
  by_cases hij : i = j
  · subst hij
    rw [ha] at hb
    cases hb
    obtain ⟨hi, hdl⟩ := getElem?_some_decomp ha
    rw [List.set_set, List.set_eq_take_cons_drop a hi, ← hdl]
  · obtain ⟨hi, hdl⟩ := getElem?_some_decomp ha
    have hmj : (l.set i b)[j]? = some b := by
      rw [List.getElem?_set_ne hij]; exact hb
    obtain ⟨hj', hmT⟩ := getElem?_some_decomp hmj
    have hmA : l.set i b = l.take i ++ b :: l.drop (i + 1) :=
      List.set_eq_take_cons_drop b hi
    have p1 : ((l.set i b).set j a).Perm
        (a :: ((l.set i b).take j ++ (l.set i b).drop (j + 1))) := by
      rw [List.set_eq_take_cons_drop a hj']
      exact List.perm_middle
    have p2 : (l.set i b).Perm
        (b :: ((l.set i b).take j ++ (l.set i b).drop (j + 1))) := by
      conv_lhs => rw [hmT]
      exact List.perm_middle
    have p3 : (l.set i b).Perm (b :: (l.take i ++ l.drop (i + 1))) := by
      conv_lhs => rw [hmA]
      exact List.perm_middle
    have p4 := (p2.symm.trans p3).cons_inv
    have p5 : l.Perm (a :: (l.take i ++ l.drop (i + 1))) := by
      conv_lhs => rw [hdl]
      exact List.perm_middle
    exact p1.trans ((p4.cons a).trans p5.symm)

/-- A swap permutes the list. -/
theorem listSwap_perm (l : List String) (i j : ℕ) : (listSwap l i j).Perm l := by
  rw [listSwap]
  split
  · rename_i a b ha hb
    exact set_set_perm ha hb
  · exact List.Perm.refl l

/-- Every sequence of Fisher–Yates rounds permutes the list. -/
theorem fyGo_perm (env : Env) : ∀ (rounds : List ℕ) (tape : ℕ) (l : List String),
    ((fyGo env rounds tape l).1).Perm l := by
  intro rounds
  induction rounds with
  | nil => intro tape l; exact List.Perm.refl l
  | cons i is ih =>
    intro tape l
    rw [fyGo]
    exact (ih _ _).trans (listSwap_perm l i _)

/-- `random.shuffle` permutes the list. -/
theorem pyShuffle_perm (env : Env) (tape : ℕ) (l : List String) :
    ((pyShuffle env tape l).1).Perm l :=
  fyGo_perm env _ tape l

/-- The two unfoldings of the padding loop. -/
theorem padOptions_zero (env : Env) (capws : List String) (answer : String)
    (tape : ℕ) (opts : List String) :
    padOptions env capws answer 0 tape opts =
      if 4 ≤ opts.length then some (opts, tape) else none := rfl

/-- One step of the padding loop. -/
theorem padOptions_succ (env : Env) (capws : List String) (answer : String)
    (f tape : ℕ) (opts : List String) :
    padOptions env capws answer (f + 1) tape opts =
      if 4 ≤ opts.length then some (opts, tape)
      else
        match capws with
        | [] =>
          padOptions env capws answer f tape
            (opts ++ ["Option " ++ String.singleton (Char.ofNat (65 + opts.length))])
        | _ :: _ =>
          let w := capws.getD (env.rand tape % capws.length) ""
          if w ∉ opts ∧ w ≠ answer then
            padOptions env capws answer f (tape + 1) (opts ++ [w])
          else padOptions env capws answer f (tape + 1) opts := rfl

/-- A run of the padding loop that returns produced exactly four options and
kept every option it started from. -/
theorem padOptions_spec (env : Env) (capws : List String) (answer : String) :
    ∀ (f tape : ℕ) (opts opts2 : List String) (t2 : ℕ),
      opts.length ≤ 4 → padOptions env capws answer f tape opts = some (opts2, t2) →
      opts2.length = 4 ∧ ∀ x ∈ opts, x ∈ opts2 := by
  intro f
  induction f with
  | zero =>
    intro tape opts opts2 t2 hle h
    rw [padOptions_zero] at h
    split at h
    · rename_i h4
      cases h
      exact ⟨le_antisymm hle h4, fun x hx => hx⟩
    · cases h
  | succ f ih =>
    intro tape opts opts2 t2 hle h
    rw [padOptions_succ] at h
    split at h
    · rename_i h4
      cases h
      exact ⟨le_antisymm hle h4, fun x hx => hx⟩
    · rename_i h4
      split at h
      · obtain ⟨hlen, hmem⟩ := ih _ _ _ _ (by simp; omega) h
        exact ⟨hlen, fun x hx => hmem x (List.mem_append_left _ hx)⟩
      · simp only [] at h
        split at h
        · obtain ⟨hlen, hmem⟩ := ih _ _ _ _ (by simp; omega) h
          exact ⟨hlen, fun x hx => hmem x (List.mem_append_left _ hx)⟩
        · exact ih _ _ _ _ hle h

/-- When the only capitalized context word equals the answer, the padding
loop makes no progress and runs out of any finite fuel. -/
theorem padOptions_stuck (env : Env) (answer : String) :
    ∀ (f tape : ℕ) (opts : List String), opts.length < 4 →
      padOptions env [answer] answer f tape opts = none := by
  intro f
  induction f with
  | zero =>
    intro tape opts h4
    rw [padOptions_zero, if_neg (Nat.not_le.mpr h4)]
  | succ f ih =>
    intro tape opts h4
    rw [padOptions_succ, if_neg (Nat.not_le.mpr h4)]
    have hw : ([answer].getD (env.rand tape % [answer].length) "") = answer := by
      simp [Nat.mod_one]
    rw [hw, if_neg (by simp)]
    exact ih _ _ h4

/-- Deduplication never lengthens a list. -/
theorem dedupFirstGo_length_le : ∀ (l seen : List String),
    (dedupFirstGo seen l).length ≤ l.length := by
  intro l
  induction l with
  | nil => intro seen; exact Nat.le_refl 0
  | cons x xs ih =>
    intro seen
    rw [dedupFirstGo]
    split
    · exact Nat.le_trans (ih seen) (Nat.le_succ _)
    · simpa using ih (x :: seen)

/-- Deduplicating with nothing seen keeps the head. -/
theorem dedupFirstGo_cons_nil (a : String) (l : List String) :
    dedupFirstGo [] (a :: l) = a :: dedupFirstGo [a] l := by
  rw [dedupFirstGo]
  simp

/-- The distractor list never exceeds the requested count. -/
theorem generate_distractors_length_le (a : String) (n : ℕ) (c : Option String)
    (ord : List String → List String) :
    (generate_distractors a n c ord).length ≤ n := by
  simp only [generate_distractors]
  split
  · exact Nat.zero_le n
  · exact List.length_take_le n _

/-! ### The attempt loop invariant -/

/-- An early exit of the attempt core keeps the results and extends the
used set. -/
theorem attemptCore_inl {ctx : String} {env : Env} {k : ℕ} {st st' : LoopState}
    (h : attemptCore ctx env k st = .inl st') :
    st'.results = st.results ∧ ∀ x ∈ st.used, x ∈ st'.used := by
  simp only [attemptCore] at h
  split at h
  · cases h; exact ⟨rfl, fun x hx => hx⟩
  · split at h
    · cases h; exact ⟨rfl, fun x hx => hx⟩
    · split at h
      · cases h; exact ⟨rfl, fun x hx => List.mem_cons_of_mem _ hx⟩
      · split at h
        · cases h; exact ⟨rfl, fun x hx => List.mem_cons_of_mem _ hx⟩
        · cases h

/-- A successful attempt core: the accepted question is fresh, the cleaned
answer is among the raw options, and at most four raw options survive. -/
theorem attemptCore_inr {ctx : String} {env : Env} {k : ℕ} {st : LoopState}
    {qt ans : String} {opts1 : List String} {t1 : ℕ}
    (h : attemptCore ctx env k st = .inr (qt, ans, opts1, t1)) :
    qt ∉ st.used ∧ ans ∈ opts1 ∧ opts1.length ≤ 4 := by
  simp only [attemptCore] at h
  split at h
  · cases h
  · split at h
    · cases h
    · rename_i raw hcond
      split at h
      · cases h
      · rename_i rawAns score hqa
        split at h
        · cases h
        · rename_i hcond2
          rw [Sum.inr.injEq, Prod.mk.injEq, Prod.mk.injEq, Prod.mk.injEq] at h
          obtain ⟨hqt, hans, hopts, -⟩ := h
          push_neg at hcond
          refine ⟨hqt ▸ hcond.2.2.2.2.2, ?_, ?_⟩
          · rw [← hopts, ← hans, dedupFirstGo_cons_nil]
            exact List.mem_cons_self _ _
          · rw [← hopts]
            refine le_trans (dedupFirstGo_length_le _ _) ?_
            have h1 : ∀ l : List String,
                (l.filter (fun d => d ≠ "" ∧ pyLower d ≠ pyLower (trimNonAlnum (pyStrip rawAns)))).length ≤ l.length :=
              fun l => List.length_filter_le _ l
            have h2 := generate_distractors_length_le (trimNonAlnum (pyStrip rawAns)) 3
              (some ctx) env.setOrder
            simp only [List.length_cons]
            have := le_trans (h1 (generate_distractors (trimNonAlnum (pyStrip rawAns)) 3 (some ctx) env.setOrder)) h2
            omega

/-- What one attempt can do to the loop state: leave the results alone, or
append one accepted question that is fresh, has exactly four options and
contains its answer among them. -/
theorem attempt_spec {ctx : String} {env : Env} {pf k : ℕ} {st st' : LoopState}
    (h : attempt ctx env pf k st = some st') :
    (st'.results = st.results ∧ ∀ x ∈ st.used, x ∈ st'.used) ∨
    (∃ q : FinalQuestion, st'.results = st.results ++ [q] ∧
      st'.used = q.question :: st.used ∧ q.question ∉ st.used ∧
      q.options.length = 4 ∧ q.answer ∈ q.options) := by
  rw [attempt] at h
  split at h
  · rename_i st1 hcore
    cases h
    exact .inl (attemptCore_inl hcore)
  · rename_i qt ans opts1 t1 hcore
    obtain ⟨hfresh, hmem, hle⟩ := attemptCore_inr hcore
    split at h
    · cases h
    · rename_i opts2 t2 hpad
      cases h
      obtain ⟨hlen4, hsub⟩ := padOptions_spec env _ ans pf t1 opts1 opts2 t2 hle hpad
      have hperm := pyShuffle_perm env t2 opts2
      have hlen : (pyShuffle env t2 opts2).1.length = 4 := by
        rw [hperm.length_eq, hlen4]
      refine .inr ⟨_, rfl, rfl, hfresh, ?_, ?_⟩
      · rw [List.take_of_length_le (le_of_eq hlen), hlen]
      · rw [List.take_of_length_le (le_of_eq hlen)]
        exact hperm.mem_iff.mpr (hsub ans hmem)

/-- The loop invariant: no more results than requested, pairwise-distinct
question texts, and every accepted question recorded in `used` and carrying
four options that contain its answer. -/
def StInv (n : ℕ) (st : LoopState) : Prop :=
  st.results.length ≤ n ∧
  st.results.Pairwise (fun a b => a.question ≠ b.question) ∧
  ∀ q ∈ st.results, q.question ∈ st.used ∧ q.options.length = 4 ∧ q.answer ∈ q.options

/-- The attempt loop preserves the invariant. -/
theorem runLoop_inv {ctx : String} {env : Env} {pf n : ℕ} :
    ∀ (ks : List ℕ) (st st' : LoopState), StInv n st →
      runLoop ctx env pf n ks st = some st' → StInv n st' := by
  intro ks
  induction ks with
  | nil =>
    intro st st' hinv h
    rw [runLoop] at h
    cases h
    exact hinv
  | cons k ks ih =>
    intro st st' hinv h
    rw [runLoop] at h
    split at h
    · cases h; exact hinv
    · rename_i hlt
      split at h
      · cases h
      · rename_i st1 hat
        refine ih st1 st' ?_ h
        obtain ⟨hlen, hpw, hq⟩ := hinv
        rcases attempt_spec hat with ⟨hres, hused⟩ | ⟨q, hres, hused, hfresh, hlen4, hansm⟩
        · refine ⟨by rw [hres]; exact hlen, by rw [hres]; exact hpw, ?_⟩
          intro q hqm
          rw [hres] at hqm
          obtain ⟨hu, ho⟩ := hq q hqm
          exact ⟨hused _ hu, ho⟩
        · refine ⟨?_, ?_, ?_⟩
          · rw [hres, List.length_append, List.length_cons, List.length_nil]
            omega
          · rw [hres]
            refine List.pairwise_append.mpr ⟨hpw, List.pairwise_singleton _ _, ?_⟩
            intro a ha b hb
            rw [List.mem_singleton] at hb
            subst hb
            intro heq
            exact hfresh (heq ▸ (hq a ha).1)
          · intro q' hq'
            rw [hres, List.mem_append, List.mem_singleton] at hq'
            rcases hq' with hq' | rfl
            · obtain ⟨hu, ho⟩ := hq q' hq'
              exact ⟨hused ▸ List.mem_cons_of_mem _ hu, ho⟩
            · exact ⟨hused ▸ List.mem_cons_self _ _, hlen4, hansm⟩

/-- The content-based fallback: source tag, exact count, constant options
and answer. -/
theorem fallback_spec (context : String) (n : ℕ) (env : Env) (tape : ℕ) :
    (generate_content_based_fallback context n env tape).source = "CONTENT_BASED" ∧
    (generate_content_based_fallback context n env tape).questions.length = n ∧
    ∀ q ∈ (generate_content_based_fallback context n env tape).questions,
      q.options = fallbackOptions ∧ q.answer = "Key element discussed" := by
  refine ⟨rfl, ?_, ?_⟩
  · simp [generate_content_based_fallback]
  · intro q hq
    simp only [generate_content_based_fallback, List.mem_map] at hq
    obtain ⟨i, hi, rfl⟩ := hq
    exact ⟨rfl, rfl⟩

/-- When the synthesizer raises, the attempt core only advances the tape. -/
theorem attemptCore_error {ctx : String} {env : Env} {k : ℕ} {st : LoopState}
    (hq : env.qg k = Except.error ()) :
    attemptCore ctx env k st = .inl { st with tape := st.tape + 1 } := by
  rw [attemptCore, hq]

/-- When every synthesizer call raises, the loop runs to the end of its
budget, each exception caught in its own attempt, and accepts nothing. -/
theorem runLoop_all_errors {ctx : String} {env : Env} {pf n : ℕ}
    (hq : ∀ k, env.qg k = Except.error ()) :
    ∀ (ks : List ℕ) (st : LoopState), ∃ t : ℕ,
      runLoop ctx env pf n ks st =
        some { tape := t, used := st.used, results := st.results } := by
  intro ks
  induction ks with
  | nil =>
    intro st
    exact ⟨st.tape, by rw [runLoop]⟩
  | cons k ks ih =>
    intro st
    rw [runLoop]
    split
    · exact ⟨st.tape, rfl⟩
    · have hat : attempt ctx env pf k st = some { st with tape := st.tape + 1 } := by
        rw [attempt, attemptCore_error (hq k)]
      rw [hat]
      obtain ⟨t, ht⟩ := ih { st with tape := st.tape + 1 }
      exact ⟨t, ht⟩

/-! ### Concrete scenario runs

The environments below pin the random tape and the two model calls, which
is enough to replay full generation runs inside the kernel. -/

/-- A context whose single paragraph survives the chunker. -/
def witctx : String := "the quick brown fox jumps over the lazy dog near riverbank today"

/-- Two good synthesizer/extractor rounds, then exceptions. -/
def witenv : Env :=
  { rand := fun t => [0, 3, 2, 1].getD (t % 4) 0,
    qg := fun k =>
      if k = 0 then Except.ok "what do foxes jump over every day"
      else if k = 1 then Except.ok "where does the lazy dog rest at noon"
      else Except.error (),
    qa := fun k =>
      if k = 0 then Except.ok ("riverbank", ⟨9, 10, by decide, by decide⟩)
      else if k = 1 then Except.ok ("lazy", ⟨1, 2, by decide, by decide⟩)
      else Except.error (),
    setOrder := id }

/-- What the run under `witenv` returns. -/
def witresp : Response :=
  { source := "AI",
    questions :=
      [{ qtype := "MCQ", question := "What do foxes jump over every day?",
         options := ["riverbank", "quick", "brown", "jumps"], answer := "riverbank" },
       { qtype := "MCQ", question := "Where does the lazy dog rest at noon?",
         options := ["lazy", "quick", "brown", "jumps"], answer := "lazy" }] }

/-- The happy-path run, replayed in the kernel. -/
theorem witrun : generate_questions witctx 2 witenv 10 = some witresp := by decide

/-- One good round, then exceptions: the loop accepts a single question. -/
def parenv : Env :=
  { witenv with
    qg := fun k =>
      if k = 0 then Except.ok "what do foxes jump over every day" else Except.error (),
    qa := fun k =>
      if k = 0 then Except.ok ("riverbank", ⟨9, 10, by decide, by decide⟩)
      else Except.error () }

/-- What the run under `parenv` returns: one question where two were asked. -/
def parresp : Response :=
  { source := "AI",
    questions :=
      [{ qtype := "MCQ", question := "What do foxes jump over every day?",
         options := ["riverbank", "quick", "brown", "jumps"], answer := "riverbank" }] }

/-- A context made of stopwords and one short word: no usable distractors
and no capitalized words, so the padding loop falls back to letter names. -/
def dupctx : String := "the and for fox the and for fox the and for fox"

/-- One good round whose answer is the literal string "Option B". -/
def dupenv : Env :=
  { witenv with
    qg := fun k =>
      if k = 0 then Except.ok "what option letter does this fox pick here"
      else Except.error (),
    qa := fun k =>
      if k = 0 then Except.ok ("Option B", ⟨9, 10, by decide, by decide⟩)
      else Except.error () }

/-- What the run under `dupenv` returns: the answer appears twice among the
options, because the letter-name padding never checks for collisions. -/
def dupresp : Response :=
  { source := "AI",
    questions :=
      [{ qtype := "MCQ", question := "What option letter does this fox pick here?",
         options := ["Option B", "Option B", "Option C", "Option D"],
         answer := "Option B" }] }

/-- A context too short for any chunk, sending the run to the fallback. -/
def fbctx : String := "apple apple"

/-- The happy-path models with a constant random tape. -/
def fbenv : Env := { witenv with rand := fun _ => 0 }

/-- What the fallback returns for `fbctx`: the same question twice. -/
def fbresp : Response :=
  { source := "CONTENT_BASED",
    questions :=
      [{ qtype := "MCQ", question := "What is the significance of Apple?",
         options := fallbackOptions, answer := "Key element discussed" },
       { qtype := "MCQ", question := "What is the significance of Apple?",
         options := fallbackOptions, answer := "Key element discussed" }] }

/-- An environment whose every model call raises. -/
def errenv : Env :=
  { rand := fun _ => 0, qg := fun _ => Except.error (),
    qa := fun _ => Except.error (), setOrder := id }

/-- One eight-word sentence: a paragraph of at most ten words, and a
sentence of exactly eight words. -/
def sentctx : String := "One two three four five six seven eight."

/-- The sentence chunker as the specification words it: sentences kept from
a minimum of eight words on. -/
def sentChunksSpec (context : String) : List String :=
  ((splitSents context.data).filter (fun c => 8 ≤ (pwordsE c).length)).map
    (fun c => ⟨pstrip c⟩)

/-- Twelve words, one of them capitalized. -/
def divctx : String :=
  "Apple apple apple apple apple apple apple apple apple apple apple apple"

/-- One good round whose answer is the only capitalized context word. -/
def divenv : Env :=
  { rand := fun _ => 0,
    qg := fun k =>
      if k = 0 then Except.ok "what fruit grows on this big tree daily"
      else Except.error (),
    qa := fun k =>
      if k = 0 then Except.ok ("Apple", ⟨9, 10, by decide, by decide⟩)
      else Except.error (),
    setOrder := id }

/-! ### The claims about the generation pipeline -/

/-- C1 (amended): every question of every returned run carries exactly four
options, among them its answer; the original claim's uniqueness parts fail
(see the counterexample). -/
theorem generate_questions_answer_in_options (context : String) (n : ℕ)
    (env : Env) (pf : ℕ) (r : Response)
    (h : generate_questions context n env pf = some r) :
    ∀ q ∈ r.questions, q.options.length = 4 ∧ q.answer ∈ q.options := by
  simp only [generate_questions] at h
  split at h
  · cases h
    intro q hq
    simp at hq
  · split at h
    · cases h
      intro q hq
      obtain ⟨-, -, hopt⟩ := fallback_spec (pyStrip context) n env 0
      obtain ⟨ho, ha⟩ := hopt q hq
      refine ⟨by rw [ho]; rfl, ?_⟩
      rw [ho, ha]
      decide
    · split at h
      · cases h
      · rename_i st hrl
        have hinv : StInv n st := runLoop_inv (List.range (n * 5))
          { tape := 0, used := [], results := [] } st
          ⟨Nat.zero_le n, List.Pairwise.nil, fun q hq => absurd hq (List.not_mem_nil q)⟩ hrl
        split at h
        · cases h
          intro q hq
          obtain ⟨-, -, hopt⟩ := fallback_spec (pyStrip context) n env st.tape
          obtain ⟨ho, ha⟩ := hopt q hq
          refine ⟨by rw [ho]; rfl, ?_⟩
          rw [ho, ha]
          decide
        · cases h
          intro q hq
          exact (hinv.2.2 q hq).2

/-- C1 counterexample: a run whose accepted question holds its answer twice
among the options, so the options are not distinct even after lowercasing. -/
theorem option_duplication_run :
    generate_questions dupctx 1 dupenv 10 = some dupresp ∧
    ∃ q ∈ dupresp.questions, 1 < q.options.count q.answer ∧
      ¬ (q.options.map pyLower).Nodup :=
  ⟨by decide, by decide⟩

/-- C1 witness: the amended invariant checked on a replayed happy-path run. -/
theorem generate_questions_answer_in_options_witness :
    generate_questions witctx 2 witenv 10 = some witresp ∧
    ∀ q ∈ witresp.questions, q.options.length = 4 ∧ q.answer ∈ q.options :=
  ⟨witrun, generate_questions_answer_in_options witctx 2 witenv 10 witresp witrun⟩

/-- C2 (amended): on a non-empty context a returned fallback run has exactly
the requested count, but a main-loop run only satisfies
`1 ≤ length ≤ requested`; the exact count claimed originally fails (see the
counterexample). -/
theorem generate_questions_count (context : String) (n : ℕ) (env : Env)
    (pf : ℕ) (r : Response) (hne : pyStrip context ≠ "")
    (h : generate_questions context n env pf = some r) :
    (r.source = "CONTENT_BASED" → r.questions.length = n) ∧
    (r.source = "AI" → 1 ≤ r.questions.length ∧ r.questions.length ≤ n) := by
  simp only [generate_questions] at h
  split at h
  · rename_i hc
    exact absurd hc hne
  · split at h
    · cases h
      obtain ⟨hs, hlen, -⟩ := fallback_spec (pyStrip context) n env 0
      exact ⟨fun _ => hlen, fun hAI => absurd (hs.symm.trans hAI) (by decide)⟩
    · split at h
      · cases h
      · rename_i st hrl
        have hinv : StInv n st := runLoop_inv (List.range (n * 5))
          { tape := 0, used := [], results := [] } st
          ⟨Nat.zero_le n, List.Pairwise.nil, fun q hq => absurd hq (List.not_mem_nil q)⟩ hrl
        split at h
        · cases h
          obtain ⟨hs, hlen, -⟩ := fallback_spec (pyStrip context) n env st.tape
          exact ⟨fun _ => hlen, fun hAI => absurd (hs.symm.trans hAI) (by decide)⟩
        · rename_i hres
          cases h
          refine ⟨fun hcb => absurd
            (show ("AI" : String) = "CONTENT_BASED" from hcb) (by decide),
            fun _ => ⟨?_, hinv.1⟩⟩
          exact List.length_pos.mpr hres

/-- C2 counterexample: a non-empty context and requested count 2 whose run
returns a single question: the pipeline returns partial results instead of
padding to the requested count. -/
theorem partial_run_shortfall :
    pyStrip witctx ≠ "" ∧
    generate_questions witctx 2 parenv 10 = some parresp ∧
    parresp.questions.length = 1 :=
  ⟨by decide, by decide, by decide⟩

/-- C2 witness: the amended count bounds checked on a replayed run. -/
theorem generate_questions_count_witness :
    generate_questions witctx 2 witenv 10 = some witresp ∧
    ((witresp.source = "CONTENT_BASED" → witresp.questions.length = 2) ∧
     (witresp.source = "AI" →
       1 ≤ witresp.questions.length ∧ witresp.questions.length ≤ 2)) :=
  ⟨witrun, generate_questions_count witctx 2 witenv 10 witresp (by decide) witrun⟩

/-- C5 (amended): a main-loop run never repeats a question text, thanks to
the `used_questions` check; the fallback paths can repeat (see the
counterexample). -/
theorem generate_questions_ai_distinct (context : String) (n : ℕ) (env : Env)
    (pf : ℕ) (r : Response)
    (h : generate_questions context n env pf = some r) (hs : r.source = "AI") :
    r.questions.Pairwise (fun a b => a.question ≠ b.question) := by
  simp only [generate_questions] at h
  split at h
  · cases h
    exact absurd hs (by decide)
  · split at h
    · cases h
      have h1 := (fallback_spec (pyStrip context) n env 0).1
      exact absurd (h1.symm.trans hs) (by decide)
    · split at h
      · cases h
      · rename_i st hrl
        have hinv : StInv n st := runLoop_inv (List.range (n * 5))
          { tape := 0, used := [], results := [] } st
          ⟨Nat.zero_le n, List.Pairwise.nil, fun q hq => absurd hq (List.not_mem_nil q)⟩ hrl
        split at h
        · cases h
          have h1 := (fallback_spec (pyStrip context) n env st.tape).1
          exact absurd (h1.symm.trans hs) (by decide)
        · cases h
          exact hinv.2.1

/-- C5 counterexample: a fallback run that returns the same question text
twice within one generation run. -/
theorem fallback_duplicate_question :
    generate_questions fbctx 2 fbenv 0 = some fbresp ∧
    ¬ (fbresp.questions.map (fun q => q.question)).Nodup :=
  ⟨by decide, by decide⟩

/-- C5 witness: pairwise-distinct question texts on a replayed AI run. -/
theorem generate_questions_ai_distinct_witness :
    generate_questions witctx 2 witenv 10 = some witresp ∧
    witresp.questions.Pairwise (fun a b => a.question ≠ b.question) :=
  ⟨witrun, generate_questions_ai_distinct witctx 2 witenv 10 witresp witrun rfl⟩

/-- C6: when every synthesizer call raises, each exception is swallowed by
its own attempt, the loop finishes its budget, and the run returns exactly
the requested number of fallback questions, each with the four distinct
non-empty generic options. -/
theorem generate_questions_all_errors (context : String) (n : ℕ) (env : Env)
    (pf : ℕ) (hne : pyStrip context ≠ "")
    (hq : ∀ k, env.qg k = Except.error ()) :
    ∃ r, generate_questions context n env pf = some r ∧
      r.source = "CONTENT_BASED" ∧ r.questions.length = n ∧
      ∀ q ∈ r.questions, q.options.length = 4 ∧ q.options.Nodup ∧
        ∀ o ∈ q.options, o ≠ "" := by
  have hfb : ∀ tape : ℕ,
      (generate_content_based_fallback (pyStrip context) n env tape).source = "CONTENT_BASED" ∧
      (generate_content_based_fallback (pyStrip context) n env tape).questions.length = n ∧
      ∀ q ∈ (generate_content_based_fallback (pyStrip context) n env tape).questions,
        q.options.length = 4 ∧ q.options.Nodup ∧ ∀ o ∈ q.options, o ≠ "" := by
    intro tape
    obtain ⟨hs, hlen, hopt⟩ := fallback_spec (pyStrip context) n env tape
    refine ⟨hs, hlen, fun q hq' => ?_⟩
    obtain ⟨ho, -⟩ := hopt q hq'
    rw [ho]
    exact ⟨rfl, by decide, by decide⟩
  simp only [generate_questions]
  rw [if_neg hne]
  by_cases hch : chunksOf (pyStrip context) = []
  · rw [if_pos hch]
    exact ⟨_, rfl, hfb 0⟩
  · rw [if_neg hch]
    obtain ⟨t, hrl⟩ := runLoop_all_errors hq (List.range (n * 5))
      { tape := 0, used := [], results := [] }
    rw [hrl]
    exact ⟨_, rfl, hfb t⟩

/-- C6 witness: the all-errors run replayed on a concrete context. -/
theorem generate_questions_all_errors_witness :
    pyStrip witctx ≠ "" ∧
    ∃ r, generate_questions witctx 2 errenv 10 = some r ∧
      r.source = "CONTENT_BASED" ∧ r.questions.length = 2 ∧
      ∀ q ∈ r.questions, q.options.length = 4 ∧ q.options.Nodup ∧
        ∀ o ∈ q.options, o ≠ "" :=
  ⟨by decide, generate_questions_all_errors witctx 2 errenv 10 (by decide) (fun k => rfl)⟩

/-- C7 (amended): a paragraph is kept exactly when its word count exceeds
10; when no paragraph survives, a sentence chunk is kept exactly when its
word count exceeds 8 (strictly, not the claimed minimum of 8); and when no
chunk survives at all, the run returns the generic fallback instead of
entering the main loop. -/
theorem generate_questions_chunking (context : String) (n : ℕ) (env : Env)
    (pf : ℕ) (hne : pyStrip context ≠ "") :
    (∀ c : String, c ∈ paraChunks context ↔
      ∃ p ∈ splitParas context.data, 10 < (pwordsE p).length ∧ c = ⟨pstrip p⟩) ∧
    (paraChunks context = [] → ∀ c : String, c ∈ chunksOf context ↔
      ∃ s ∈ splitSents context.data, 8 < (pwordsE s).length ∧ c = ⟨pstrip s⟩) ∧
    (chunksOf (pyStrip context) = [] →
      ∃ r, generate_questions context n env pf = some r ∧
        r.source = "CONTENT_BASED" ∧ r.questions.length = n) := by
  refine ⟨?_, ?_, ?_⟩
  · intro c
    simp only [paraChunks, List.mem_map, List.mem_filter, decide_eq_true_eq]
    constructor
    · rintro ⟨p, ⟨hp, hlen⟩, rfl⟩
      exact ⟨p, hp, hlen, rfl⟩
    · rintro ⟨p, hp, hlen, rfl⟩
      exact ⟨p, ⟨hp, hlen⟩, rfl⟩
  · intro hpara c
    rw [chunksOf, if_pos hpara]
    simp only [sentChunks, List.mem_map, List.mem_filter, decide_eq_true_eq]
    constructor
    · rintro ⟨s, ⟨hs, hlen⟩, rfl⟩
      exact ⟨s, hs, hlen, rfl⟩
    · rintro ⟨s, hs, hlen, rfl⟩
      exact ⟨s, ⟨hs, hlen⟩, rfl⟩
  · intro hch
    simp only [generate_questions]
    rw [if_neg hne, if_pos hch]
    exact ⟨_, rfl, (fallback_spec _ n env 0).1, (fallback_spec _ n env 0).2.1⟩

/-- C7 counterexample: an eight-word sentence is dropped by the code's
strict filter although the claimed minimum of eight words keeps it. -/
theorem sentence_minimum_mismatch :
    paraChunks sentctx = [] ∧ sentChunks sentctx = [] ∧ chunksOf sentctx = [] ∧
    sentChunksSpec sentctx = ["One two three four five six seven eight."] := by
  decide

/-- C7 witness: the chunking characterization applied to the eight-word
sentence context, whose run indeed returns the fallback. -/
theorem generate_questions_chunking_witness :
    pyStrip sentctx ≠ "" ∧
    ((∀ c : String, c ∈ paraChunks sentctx ↔
      ∃ p ∈ splitParas sentctx.data, 10 < (pwordsE p).length ∧ c = ⟨pstrip p⟩) ∧
    (paraChunks sentctx = [] → ∀ c : String, c ∈ chunksOf sentctx ↔
      ∃ s ∈ splitSents sentctx.data, 8 < (pwordsE s).length ∧ c = ⟨pstrip s⟩) ∧
    (chunksOf (pyStrip sentctx) = [] →
      ∃ r, generate_questions sentctx 1 errenv 10 = some r ∧
        r.source = "CONTENT_BASED" ∧ r.questions.length = 1)) :=
  ⟨by decide, generate_questions_chunking sentctx 1 errenv 10 (by decide)⟩

/-- C8: the attempt budget is not the only bound on a run: with a context
whose only capitalized word is the accepted answer, the option-padding
`while` loop never makes progress, and the run never returns, whatever
finite fuel it is given. -/
theorem generate_questions_divergence (pf : ℕ) :
    generate_questions divctx 1 divenv pf = none := by
  have hcore : attemptCore (pyStrip divctx) divenv 0
      { tape := 0, used := [], results := [] } =
      .inr ("What fruit grows on this big tree daily?", "Apple", ["Apple"], 1) := by
    decide
  have hcaps : findCapWords (pyStrip divctx) = ["Apple"] := by decide
  have hat : attempt (pyStrip divctx) divenv pf 0
      { tape := 0, used := [], results := [] } = none := by
    rw [attempt, hcore]
    dsimp only
    rw [hcaps, padOptions_stuck divenv "Apple" pf 1 ["Apple"] (by decide)]
  have hrange : List.range (1 * 5) = [0, 1, 2, 3, 4] := rfl
  simp only [generate_questions]
  rw [if_neg (by decide), if_neg (by decide), hrange, runLoop,
    if_neg (by decide), hat]

end Quiz
